import Mathlib

/-!
Verification of the DentalManager payment-OCR pipeline
(`apps/PaymentOCRService/complete-pipeline.py`).

The Python source is shallowly embedded below: every definition mirrors a
function of the source file (named in its doc comment).  Python floats are
modelled as exact rationals except for the genuinely transcendental
rotation code, modelled over the reals.  Regular expressions used by the
extractor are hand-embedded as character-list scanners with the exact
greedy/backtracking semantics of the Python `re` module on the concerned
patterns.
-/

/- Batteries marks the rational field operations irreducible, which blocks
kernel evaluation under `decide`; the concrete evaluations below need them
to reduce.  This only restores definitional transparency, it proves
nothing by itself. -/
set_option allowUnsafeReducibility true
attribute [local semireducible] Rat.add Rat.mul Rat.sub Rat.div Rat.neg Rat.inv

namespace DentalOCR

/-! ## Character and string utilities (Python semantics) -/

/-- Python `str.isspace` characters relevant to `\s` in the `re` module
(ASCII): space, tab, newline, carriage return, vertical tab, form feed. -/
def pyIsSpace (c : Char) : Bool :=
  c = ' ' || c = '\t' || c = '\n' || c = '\r' || c = Char.ofNat 11 || c = Char.ofNat 12

/-- Word character for `\b` boundaries in the `re` module: `[A-Za-z0-9_]`
(inputs here are ASCII). -/
def isWordChar (c : Char) : Bool :=
  c.isAlphanum || c = '_'

/-- Case-insensitive character equality (ASCII upper-casing, as done by
`re.IGNORECASE` on ASCII input). -/
def charEqCI (a b : Char) : Bool :=
  a.toUpper = b.toUpper

/-- Case-insensitive literal match of `pat` at the head of `cs`; returns the
rest of the input on success. -/
def dropLitCI : List Char → List Char → Option (List Char)
  | [], cs => some cs
  | _ :: _, [] => none
  | p :: ps, c :: cs => if charEqCI p c then dropLitCI ps cs else none

/-- Exact literal match of `pat` at the head of `cs`. -/
def dropLit : List Char → List Char → Option (List Char)
  | [], cs => some cs
  | _ :: _, [] => none
  | p :: ps, c :: cs => if p = c then dropLit ps cs else none

/-- Python `str.split()` with no argument: split on runs of whitespace,
discarding empty pieces. -/
def splitWsAux : List Char → List Char → List String
  | [], acc => if acc = [] then [] else [String.mk acc.reverse]
  | c :: cs, acc =>
    if pyIsSpace c then
      (if acc = [] then [] else [String.mk acc.reverse]) ++ splitWsAux cs []
    else
      splitWsAux cs (c :: acc)

/-- Python `t.split()`. -/
def splitWs (t : String) : List String :=
  splitWsAux t.data []

/-- Python `str.strip()`: remove leading and trailing whitespace. -/
def pyStrip (s : String) : String :=
  String.mk (((s.data.dropWhile pyIsSpace).reverse.dropWhile pyIsSpace).reverse)

/-- Python `str.upper()` on ASCII. -/
def pyUpper (s : String) : String :=
  String.mk (s.data.map Char.toUpper)

/-- Python `str.title()` on ASCII input: a letter is upper-cased when the
previous character is not a letter, lower-cased otherwise. -/
def pyTitleAux : Bool → List Char → List Char
  | _, [] => []
  | prevAlpha, c :: cs =>
    (if c.isAlpha then (if prevAlpha then c.toLower else c.toUpper) else c)
      :: pyTitleAux c.isAlpha cs

/-- Python `str.title()`. -/
def pyTitle (s : String) : String :=
  String.mk (pyTitleAux false s.data)

/-- Substring containment on character lists (Python `sub in s`). -/
def containsSub (sub : List Char) : List Char → Bool
  | [] => (dropLit sub []).isSome
  | c :: cs => (dropLit sub (c :: cs)).isSome || containsSub sub cs

/-- Python `s.find(sub)`: index of the first occurrence, `none` if absent
(Python returns -1). -/
def findSub (sub : List Char) : List Char → Option Nat
  | [] => if (dropLit sub []).isSome then some 0 else none
  | c :: cs =>
    if (dropLit sub (c :: cs)).isSome then some 0
    else (findSub sub cs).map (· + 1)

/-- Digits of a character list read as a natural number (most significant
first); characters are assumed to be ASCII digits. -/
def natOfDigits : List Char → Nat → Nat
  | [], acc => acc
  | c :: cs, acc => natOfDigits cs (acc * 10 + (c.toNat - 48))

/-! ## Embedded regular expressions of the extractor

`AMOUNT_RE = (\d{1,3}(?:,\d{3})*\.\d{2})`, `DATE6_RE = \b\d{6}\b`,
`PD_ROW_RE = \bPD\s+(D?\d{4})\b` (IGNORECASE), `ICN_LINE_RE = ^\s*\d{12,}\b`,
`MEMBER_RE = \bMEMBER NAME\s*:\s*(.+)` (IGNORECASE),
`MEMBERID_RE = \bMEMBER ID\s*:\s*([A-Za-z0-9]+)` (IGNORECASE),
`TOOTH_RE = ^(?:[1-9]|[12][0-9]|3[0-2]|[A-Ta-t])$`,
`SURFACE_RE = ^[MDBOILFP]{1,4}$` (IGNORECASE). -/

/-- Matcher for the AMOUNT_RE suffix `\.\d{2}` at the current position:
returns the matched characters and the rest. -/
def amountDotDD : List Char → Option (List Char × List Char)
  | c :: a :: b :: rest =>
    if c = '.' && a.isDigit && b.isDigit then some ([c, a, b], rest) else none
  | _ => none

/-- Matcher for the AMOUNT_RE tail `(?:,\d{3})*\.\d{2}` at the current
position, with the greedy backtracking of the `re` module: prefer one more
comma group when the remainder still matches, otherwise match the dot part
here. -/
def amountTail : List Char → Option (List Char × List Char)
  | c :: a :: b :: d :: rest =>
    if c = ',' && a.isDigit && b.isDigit && d.isDigit then
      match amountTail rest with
      | some (m, r) => some (c :: a :: b :: d :: m, r)
      | none => amountDotDD (c :: a :: b :: d :: rest)
    else amountDotDD (c :: a :: b :: d :: rest)
  | cs => amountDotDD cs

/-- `\d{1,3}` taking exactly `k` digits, then the tail. -/
def amountLead (k : Nat) (cs : List Char) : Option (List Char × List Char) :=
  if (cs.take k).length = k && (cs.take k).all Char.isDigit then
    (amountTail (cs.drop k)).map fun p => (cs.take k ++ p.1, p.2)
  else none

/-- Attempt of the full AMOUNT_RE pattern at the current position: the greedy
`\d{1,3}` tries three digits first, then two, then one. -/
def amountAtPos (cs : List Char) : Option (List Char × List Char) :=
  match amountLead 3 cs with
  | some p => some p
  | none =>
    match amountLead 2 cs with
    | some p => some p
    | none => amountLead 1 cs

theorem amountDotDD_lt {cs m r : List Char} (h : amountDotDD cs = some (m, r)) :
    r.length + 3 ≤ cs.length := by
  match cs with
  | [] => simp [amountDotDD] at h
  | [a] => simp [amountDotDD] at h
  | [a, b] => simp [amountDotDD] at h
  | c :: a :: b :: rest =>
    simp only [amountDotDD] at h
    split at h
    · cases h; simp
    · cases h

theorem amountTail_lt : ∀ {cs m r : List Char},
    amountTail cs = some (m, r) → r.length + 3 ≤ cs.length
  | c :: a :: b :: d :: rest, m, r, h => by
    rw [amountTail] at h
    split at h
    · cases h2 : amountTail rest with
      | some p =>
        obtain ⟨m2, r2⟩ := p
        rw [h2] at h
        cases h
        have := amountTail_lt h2
        simp
        omega
      | none =>
        rw [h2] at h
        exact amountDotDD_lt h
    · exact amountDotDD_lt h
  | [], m, r, h => by simp [amountTail, amountDotDD] at h
  | [a], m, r, h => by
    have he : amountTail [a] = amountDotDD [a] := rfl
    rw [he] at h
    exact amountDotDD_lt h
  | [a, b], m, r, h => by
    have he : amountTail [a, b] = amountDotDD [a, b] := rfl
    rw [he] at h
    exact amountDotDD_lt h
  | [a, b, c], m, r, h => by
    have he : amountTail [a, b, c] = amountDotDD [a, b, c] := rfl
    rw [he] at h
    exact amountDotDD_lt h

theorem amountAtPos_lt {cs m r : List Char} (h : amountAtPos cs = some (m, r)) :
    r.length < cs.length := by
  have key : ∀ k, amountLead k cs = some (m, r) → r.length < cs.length := by
    intro k hk
    unfold amountLead at hk
    split at hk
    · rw [Option.map_eq_some'] at hk
      obtain ⟨⟨m2, r2⟩, h2, hp⟩ := hk
      have h3 := amountTail_lt h2
      have hr : r = r2 := (congrArg Prod.snd hp).symm
      have hd : (cs.drop k).length = cs.length - k := by simp
      subst hr
      omega
    · cases hk
  unfold amountAtPos at h
  split at h
  · rename_i p h3
    cases h
    exact key 3 h3
  · split at h
    · rename_i p h2
      cases h
      exact key 2 h2
    · exact key 1 h

/-- `AMOUNT_RE.findall(t)` on the character list: left-to-right scan emitting
non-overlapping matches.  The scan is written with explicit fuel so that it
is a structural recursion; every successful match consumes at least one
character (`amountAtPos_lt`), so any fuel of at least the list length gives
the same result (`amountScanF_fuel_irrel`). -/
def amountScanF : Nat → List Char → List String
  | 0, _ => []
  | _ + 1, [] => []
  | fuel + 1, c :: cs =>
    match amountAtPos (c :: cs) with
    | some (m, r) => String.mk m :: amountScanF fuel r
    | none => amountScanF fuel cs

theorem amountScanF_fuel_irrel : ∀ (f g : Nat) (cs : List Char),
    cs.length ≤ f → cs.length ≤ g → amountScanF f cs = amountScanF g cs
  | 0, 0, _, _, _ => rfl
  | 0, _ + 1, [], _, _ => rfl
  | _ + 1, 0, [], _, _ => rfl
  | _ + 1, _ + 1, [], _, _ => rfl
  | f + 1, g + 1, c :: cs, hf, hg => by
    rw [amountScanF, amountScanF]
    cases h : amountAtPos (c :: cs) with
    | some p =>
      obtain ⟨m, r⟩ := p
      have hlt := amountAtPos_lt h
      simp at hf hg hlt
      show String.mk m :: amountScanF f r = String.mk m :: amountScanF g r
      rw [amountScanF_fuel_irrel f g r (by omega) (by omega)]
    | none =>
      simp at hf hg
      show amountScanF f cs = amountScanF g cs
      rw [amountScanF_fuel_irrel f g cs (by omega) (by omega)]

/-- `AMOUNT_RE.findall(t)`. -/
def amountFindall (t : String) : List String := amountScanF t.data.length t.data

/-- One-position attempt of `\b\d{6}\b` (the caller checks the left
boundary): six digits whose following character, if any, is not a word
character. -/
def date6At (cs : List Char) : Option String :=
  let ds := cs.take 6
  if ds.length = 6 && ds.all Char.isDigit then
    match cs.drop 6 with
    | [] => some (String.mk ds)
    | d :: _ => if isWordChar d then none else some (String.mk ds)
  else none

/-- `DATE6_RE.search`: scan left to right; a position qualifies when the
previous character is not a word character (the pattern itself starts with a
word character, so the boundary reduces to that). -/
def date6SearchAux : Bool → List Char → Option String
  | _, [] => none
  | prevWord, c :: cs =>
    match (if prevWord then none else date6At (c :: cs)) with
    | some s => some s
    | none => date6SearchAux (isWordChar c) cs

/-- `DATE6_RE.search(t)`, yielding group 0 of the first match. -/
def date6Search (t : String) : Option String := date6SearchAux false t.data

/-- `DATE6_RE.fullmatch(tok)` as a predicate: the token is exactly six
digits (the two boundaries then hold automatically). -/
def tokenIsDate6 (s : String) : Bool :=
  s.data.length = 6 && s.data.all Char.isDigit

/-- `ICN_LINE_RE.match(t)`: anchored `^\s*\d{12,}\b`; group 0 keeps the
leading whitespace.  The digit run is maximal, so the trailing boundary
fails only when a letter or underscore follows it. -/
def icnMatch (t : String) : Option String :=
  let sp := t.data.takeWhile pyIsSpace
  let rest := t.data.dropWhile pyIsSpace
  let ds := rest.takeWhile Char.isDigit
  let after := rest.drop ds.length
  if 12 ≤ ds.length then
    match after with
    | [] => some (String.mk (sp ++ ds))
    | d :: _ => if isWordChar d then none else some (String.mk (sp ++ ds))
  else none

/-- After the literal `MEMBER NAME`, consume `\s*:\s*` and capture `(.+)`
(greedy, newline-free, at least one character).  A colon is not whitespace,
so the greedy `\s*` needs no backtracking. -/
def memberTailCapture (cs : List Char) : Option String :=
  match cs.dropWhile pyIsSpace with
  | ':' :: rest =>
    let g := rest.dropWhile pyIsSpace
    let run := g.takeWhile (fun c => c ≠ '\n')
    if run = [] then none else some (String.mk run)
  | _ => none

/-- `MEMBER_RE.search` scanner: try the case-insensitive literal at every
position whose previous character is not a word character. -/
def memberNameSearchAux : Bool → List Char → Option String
  | _, [] => none
  | prevWord, c :: cs =>
    match
      (if prevWord then none
       else
         match dropLitCI "MEMBER NAME".data (c :: cs) with
         | some rest => memberTailCapture rest
         | none => none) with
    | some s => some s
    | none => memberNameSearchAux (isWordChar c) cs

/-- `MEMBER_RE.search(t)`, yielding group 1 of the first match. -/
def memberNameSearch (t : String) : Option String :=
  memberNameSearchAux false t.data

/-- After the literal `MEMBER ID`, consume `\s*:\s*` and capture the maximal
alphanumeric run `([A-Za-z0-9]+)`. -/
def memberIdTail (cs : List Char) : Option String :=
  match cs.dropWhile pyIsSpace with
  | ':' :: rest =>
    let g := rest.dropWhile pyIsSpace
    let run := g.takeWhile Char.isAlphanum
    if run = [] then none else some (String.mk run)
  | _ => none

/-- `MEMBERID_RE.search` scanner. -/
def memberIdSearchAux : Bool → List Char → Option String
  | _, [] => none
  | prevWord, c :: cs =>
    match
      (if prevWord then none
       else
         match dropLitCI "MEMBER ID".data (c :: cs) with
         | some rest => memberIdTail rest
         | none => none) with
    | some s => some s
    | none => memberIdSearchAux (isWordChar c) cs

/-- `MEMBERID_RE.search(t)`, yielding group 1 of the first match. -/
def memberIdSearch (t : String) : Option String :=
  memberIdSearchAux false t.data

/-- `\d{4}\b` at the head of `cs`: four digits whose following character, if
any, is not a word character. -/
def pdFourDigits (cs : List Char) : Option String :=
  let ds := cs.take 4
  if ds.length = 4 && ds.all Char.isDigit then
    match cs.drop 4 with
    | [] => some (String.mk ds)
    | e :: _ => if isWordChar e then none else some (String.mk ds)
  else none

/-- Code group `(D?\d{4})\b` at the head of `cs` (IGNORECASE): the greedy
optional `D` is tried first, keeping the original case in the group. -/
def pdCodeAt (cs : List Char) : Option String :=
  match
    (match cs with
     | d :: rest =>
       if d = 'D' || d = 'd' then
         (pdFourDigits rest).map fun s => String.mk (d :: s.data)
       else none
     | [] => none) with
  | some s => some s
  | none => pdFourDigits cs

/-- Attempt `PD\s+(D?\d{4})\b` at the current position (the caller checks
the left boundary): the group starts with a non-space character, so the
greedy `\s+` needs no backtracking. -/
def pdRowAt (cs : List Char) : Option String :=
  match dropLitCI "PD".data cs with
  | some rest =>
    if rest.takeWhile pyIsSpace = [] then none
    else pdCodeAt (rest.dropWhile pyIsSpace)
  | none => none

/-- `PD_ROW_RE.search` scanner. -/
def pdRowSearchAux : Bool → List Char → Option String
  | _, [] => none
  | prevWord, c :: cs =>
    match (if prevWord then none else pdRowAt (c :: cs)) with
    | some s => some s
    | none => pdRowSearchAux (isWordChar c) cs

/-- `PD_ROW_RE.search(t)`, yielding group 1 of the first match. -/
def pdRowSearch (t : String) : Option String := pdRowSearchAux false t.data

/-- `PD_ROW_RE.match(f"PD {tok}")` as a predicate on the token: the prefix
`\bPD\s+` consumes exactly `PD ` of the synthetic string, leaving
`D?\d{4}\b` against the token. -/
def pdTokMatch (tok : String) : Bool := (pdCodeAt tok.data).isSome

/-- `TOOTH_RE.fullmatch(tok)`: 1 to 9, 10 to 29, 30 to 32, or a single
letter A to T of either case. -/
def toothFull (s : String) : Bool :=
  match s.data with
  | [c] =>
    ('1' ≤ c && c ≤ '9') || ('A' ≤ c && c ≤ 'T') || ('a' ≤ c && c ≤ 't')
  | [c, d] =>
    ((c = '1' || c = '2') && d.isDigit) || (c = '3' && ('0' ≤ d && d ≤ '2'))
  | _ => false

/-- One surface character of `[MDBOILFP]` up to case. -/
def isSurfaceChar (c : Char) : Bool :=
  let u := c.toUpper
  u = 'M' || u = 'D' || u = 'B' || u = 'O' || u = 'I' || u = 'L' || u = 'F' ||
    u = 'P'

/-- `SURFACE_RE.fullmatch(tok)`: one to four surface characters. -/
def surfaceFull (s : String) : Bool :=
  1 ≤ s.data.length && s.data.length ≤ 4 && s.data.all isSurfaceChar

/-- `_to_float` on a token matched by AMOUNT_RE: strip commas, then read
`<digits>.<dd>` as an exact rational. -/
def ratOfAmount (s : String) : ℚ :=
  let cs := s.data.filter (fun c => c ≠ ',')
  let intPart := cs.takeWhile (fun c => c ≠ '.')
  let frac := (cs.dropWhile (fun c => c ≠ '.')).drop 1
  (natOfDigits intPart 0 : ℚ) + (natOfDigits frac 0 : ℚ) / 10 ^ frac.length

/-! ## `_parse_pd_line` (source lines 465-525) -/

/-- Result tuple of `_parse_pd_line`:
`(CDT, billed, allowed, paid, date6, tooth, surface)`.  Python `None` in the
amount slots is `none`; absent date, tooth and surface likewise. -/
structure PDParse where
  code : String
  billed : Option ℚ
  allowed : Option ℚ
  paid : Option ℚ
  date : Option String
  tooth : Option String
  surface : Option String
deriving DecidableEq, Repr

/-- `amts[-3:]` destructured into `(billed, allowed, paid)`; when fewer than
three amounts are present the three fields stay `None`. -/
def lastThree (amts : List ℚ) : Option ℚ × Option ℚ × Option ℚ :=
  match amts.drop (amts.length - 3) with
  | [b, a, p] => (some b, some a, some p)
  | _ => (none, none, none)

/-- `tokens.index(code)` with the `ValueError` fallback scan that retries
each token through `PD_ROW_RE.match(f"PD {tok}")`. -/
def codeIdxOf (tokens : List String) (code : String) : Option Nat :=
  match tokens.findIdx? (fun tok => tok == code) with
  | some i => some i
  | none => tokens.findIdx? pdTokMatch

/-- First index strictly after `codeIdx` whose token fully matches DATE6_RE. -/
def dateIdxAfter (tokens : List String) (codeIdx : Nat) : Option Nat :=
  match (tokens.drop (codeIdx + 1)).findIdx? tokenIsDate6 with
  | some j => some (codeIdx + 1 + j)
  | none => none

/-- Token window `tokens[code_idx + 1 : date_idx or len(tokens)]`. -/
def pdWindow (tokens : List String) (codeIdx : Nat) : List String :=
  match dateIdxAfter tokens codeIdx with
  | some di => (tokens.drop (codeIdx + 1)).take (di - (codeIdx + 1))
  | none => tokens.drop (codeIdx + 1)

/-- Tooth and surface scan of the window: the first TOOTH_RE token
(upper-cased) is the tooth; the surface scan then starts just after the
first window token whose upper-casing equals the tooth. -/
def toothSurfaceOf (window : List String) : Option String × Option String :=
  match window.find? toothFull with
  | none => (none, (window.find? surfaceFull).map pyUpper)
  | some rawTooth =>
    let tooth := pyUpper rawTooth
    let startJ :=
      match window.findIdx? (fun tok => pyUpper tok == tooth) with
      | some j => j + 1
      | none => 0
    (some tooth, ((window.drop startJ).find? surfaceFull).map pyUpper)

/-- Code normalisation: `code if code.upper().startswith("D") else "D"+code`
(the group is `D?\d{4}`, so this tests the first character against both
cases of D). -/
def normCode (g : String) : String :=
  match g.data with
  | d :: _ => if d = 'D' || d = 'd' then g else "D" ++ g
  | [] => "D" ++ g

/-- Tooth and surface of the whole line: locate the code token, then scan
its window; both stay `None` when the code token cannot be located. -/
def toothSurfaceOfLine (t : String) (code : String) : Option String × Option String :=
  match codeIdxOf (splitWs t) code with
  | none => (none, none)
  | some ci => toothSurfaceOf (pdWindow (splitWs t) ci)

/-- `_parse_pd_line(t)`: `None` exactly when PD_ROW_RE finds no code. -/
def parsePDLine (t : String) : Option PDParse :=
  match pdRowSearch t with
  | none => none
  | some g =>
    some ⟨normCode g,
      (lastThree ((amountFindall t).map ratOfAmount)).1,
      (lastThree ((amountFindall t).map ratOfAmount)).2.1,
      (lastThree ((amountFindall t).map ratOfAmount)).2.2,
      date6Search t,
      (toothSurfaceOfLine t (normCode g)).1,
      (toothSurfaceOfLine t (normCode g)).2⟩

/-! ## `extract_all_clients_from_lines` (source lines 527-612)

The function only reads `L["text"]` of each post line, so the embedding
takes the list of line texts directly. -/

/-- One output record.  The Python dict stores `""` in the amount cells when
an amount is `None`; the union type float-or-empty-string is modelled as
`Option ℚ` with `none` for the empty string.  The emitted dict has no
Surface key (the line is commented out in the source). -/
structure Row where
  name : String
  pid : String
  icn : String
  code : String
  tooth : String
  date : String
  billed : Option ℚ
  allowed : Option ℚ
  paid : Option ℚ
  success : Bool
deriving DecidableEq, Repr

/-- Name truncation at the fixed section markers (upper-cased search), each
cut followed by `strip()`, in the fixed order of the source. -/
def cutName (raw : String) : String :=
  (["MEMBER ID", "OTH INS CD", "PA:", "DIAG:"]).foldl
    (fun mname cp =>
      match findSub cp.data (pyUpper mname).data with
      | some idx => pyStrip (String.mk (mname.data.take idx))
      | none => mname)
    raw

/-- ICN lookback: scan `k = start-1, start-2, ...` down to
`max(-1, start-6)` exclusive, returning the first ICN_LINE_RE match. -/
def icnLookback (texts : List String) (start : Nat) : String :=
  let ks := (List.range 5).filterMap fun d =>
    if d + 1 ≤ start then some (start - 1 - d) else none
  match ks.findSome? (fun k => icnMatch (texts.getD k "")) with
  | some s => s
  | none => ""

/-- Candidate detail line test `" PD " in f" {t} "`. -/
def hasPDToken (t : String) : Bool :=
  containsSub " PD ".data (" " ++ t ++ " ").data

/-- Rows of one member block (`texts[start:end]` with the header at
`start`): one row per parsable PD line, else the single placeholder row. -/
def blockRows (texts : List String) (start stop : Nat) : List Row :=
  let block := (texts.drop start).take (stop - start)
  let nameLine := texts.getD start ""
  let rawName := pyStrip ((memberNameSearch nameLine).getD "")
  let mname := cutName rawName
  let mid := ((block.findSome? memberIdSearch).getD "")
  let icn := icnLookback texts start
  let detail := (block.filter hasPDToken).filterMap parsePDLine
  if detail = [] then
    [⟨if mname = "" then "" else pyTitle mname, mid, icn, "", "", "",
      none, none, none, mname != "" || mid != ""⟩]
  else
    detail.map fun p =>
      ⟨if mname = "" then "" else pyTitle mname, mid, icn, p.code,
        p.tooth.getD "", p.date.getD "", p.billed, p.allowed, p.paid, true⟩

/-- Header positions: indices of the lines on which MEMBER_RE matches. -/
def memberStarts (texts : List String) : List Nat :=
  (List.range texts.length).filter fun i =>
    (memberNameSearch (texts.getD i "")).isSome

/-- `extract_all_clients_from_lines` on the text list: concatenate the rows
of the blocks delimited by consecutive member headers. -/
def extractAllClients (texts : List String) : List Row :=
  let starts := memberStarts texts
  (List.range starts.length).flatMap fun si =>
    blockRows texts (starts.getD si 0)
      (starts.getD (si + 1) texts.length)

/-- Modelled from the spec (claim C4 wording): the service date as the first
6-digit token occurring after the procedure code on the line, located with
the same tokenisation and code lookup as the source. -/
def specDateAfterCode (t : String) : Option String :=
  match pdRowSearch t with
  | none => none
  | some g =>
    match codeIdxOf (splitWs t) (normCode g) with
    | none => none
    | some ci => (dateIdxAfter (splitWs t) ci).map fun di => (splitWs t).getD di ""

/-! ## Skew estimation: `weighted_median` and `estimate_skew_pairs`
(source lines 88-136) -/

/-- An OCR word: recognised text, bounding-box width and height, centroid.
(The source records left and top as well; no embedded code path reads
them.) -/
structure Word where
  text : String
  w : ℚ
  h : ℚ
  cx : ℚ
  cy : ℚ
deriving DecidableEq, Repr

/-- Python sort key `(cy, cx)` as a total preorder.  `List.insertionSort`
with a total preorder is a stable sort, hence it agrees exactly with the
stable Python `sorted`. -/
def wordLe (a b : Word) : Prop :=
  a.cy < b.cy ∨ (a.cy = b.cy ∧ a.cx ≤ b.cx)

instance : DecidableRel wordLe := fun a b => by
  unfold wordLe; infer_instance

/-- Value order of `(value, weight)` pairs (Python key `t[0]`, stable). -/
def pairLe (a b : ℚ × ℚ) : Prop := a.1 ≤ b.1

instance : DecidableRel pairLe := fun a b => by
  unfold pairLe; infer_instance

/-- `np.median` of a non-empty rational list: mean of the two middle values
of the ascending sort when the length is even, the middle value when odd.
Returns 0 on the empty list (the source never reaches that case: it
substitutes defaults beforehand). -/
def npMedian (l : List ℚ) : ℚ :=
  let s := List.insertionSort (fun a b : ℚ => a ≤ b) l
  if l.length % 2 = 1 then s.getD (l.length / 2) 0
  else (s.getD (l.length / 2 - 1) 0 + s.getD (l.length / 2) 0) / 2

/-- One update of the running best candidate (lines 119-123): inside the
band and past the minimum horizontal separation, replace only on strictly
smaller dx (so the first minimum wins, as in the source). -/
def partnerStep (wi : Word) (yBand minDx : ℚ) (wj : Word)
    (best : Option (Word × ℚ)) : Option (Word × ℚ) :=
  if |wj.cy - wi.cy| ≤ yBand ∧ ¬(wj.cx - wi.cx ≤ 0 ∨ wj.cx - wi.cx < minDx) then
    match best with
    | none => some (wj, wj.cx - wi.cx)
    | some (bw, bdx) =>
      if wj.cx - wi.cx < bdx then some (wj, wj.cx - wi.cx) else some (bw, bdx)
  else best

/-- The inner j-loop of `estimate_skew_pairs` (lines 114-123): walk the
words after w_i in sorted order, breaking at the first word whose dy
exceeds the band, folding `partnerStep` over the rest.  Since the list is
sorted by cy, dy is nonnegative, so the `|dy| ≤ band` recheck of line 119
holds whenever the break did not fire. -/
def bestPartner (wi : Word) (yBand minDx : ℚ) :
    List Word → Option (Word × ℚ) → Option (Word × ℚ)
  | [], best => best
  | wj :: rest, best =>
    if yBand < wj.cy - wi.cy then best
    else bestPartner wi yBand minDx rest (partnerStep wi yBand minDx wj best)

/-- The angle filter `abs(degrees(atan2(dy, dx))) <= 15` of line 128 in
decidable algebraic form.  All candidate pairs have dx ≥ min_dx ≥ 4 > 0,
and for dx > 0 the filter is equivalent to `|dy| ≤ dx · tan 15°` with
`tan 15° = 2 − √3`, i.e. to `√3·dx ≤ 2·dx − |dy|`, i.e. to the square form
below (`angleOK_iff_arctan` proves the equivalence). -/
def angleOK (dy dx : ℚ) : Prop :=
  0 ≤ 2 * dx - |dy| ∧ 3 * dx ^ 2 ≤ (2 * dx - |dy|) ^ 2

instance (dy dx : ℚ) : Decidable (angleOK dy dx) := by
  unfold angleOK; infer_instance

/-- One collected sample of the pair estimator: the pair of words and the
appended weight `max(1.0, dx)` of line 129.  The angle value itself,
`degrees(atan2(dy, dx))`, is transcendental; `pairAngleDeg` below gives
it. -/
structure PairSample where
  wi : Word
  wj : Word
  weight : ℚ
deriving DecidableEq, Repr

/-- The outer i-loop of lines 113-129 over the sorted word list: each word
contributes at most one sample, built from its best partner when the angle
filter passes. -/
def collectFrom (yBand minDx : ℚ) : List Word → List PairSample
  | [] => []
  | wi :: rest =>
    (match bestPartner wi yBand minDx rest none with
     | none => []
     | some (wj, dx) =>
       if angleOK (wj.cy - wi.cy) dx then [⟨wi, wj, max 1 dx⟩] else []) ++
    collectFrom yBand minDx rest

/-- Lines 103-129 of `estimate_skew_pairs` (with the call-site parameters
`y_band_mult = 2.0`, `min_dx_mult = 0.8`): the list of collected
(angle, weight) samples, each sample keeping its word pair in place of the
transcendental angle value. -/
def collectPairs (words : List Word) : List PairSample :=
  if words = [] then []
  else
    let widths := (words.filter fun w => decide (0 < w.w)).map Word.w
    let heights := (words.filter fun w => decide (0 < w.h)).map Word.h
    let wMed := if widths = [] then 10 else npMedian widths
    let hMed := if heights = [] then 16 else npMedian heights
    collectFrom (2 * hMed) (max 4 (8 / 10 * wMed))
      (List.insertionSort wordLe words)

/-- The real angle of a sample, `degrees(atan2(dy, dx))`, for the dx > 0
case that every collected sample satisfies. -/
noncomputable def pairAngleDeg (s : PairSample) : ℝ :=
  Real.arctan (((s.wj.cy - s.wi.cy : ℚ) : ℝ) / ((s.wj.cx - s.wi.cx : ℚ) : ℝ)) *
    180 / Real.pi

/-- `weighted_median` loop of lines 92-97: running weight, first value at
which it reaches half the total; if the loop completes, the last value. -/
def wmGo (tot : ℚ) : ℚ → List (ℚ × ℚ) → ℚ
  | _, [] => 0
  | acc, (v, w) :: rest =>
    if tot / 2 ≤ acc + w then v
    else
      match rest with
      | [] => v
      | _ :: _ => wmGo tot (acc + w) rest

/-- `weighted_median(pairs)` (lines 88-97). -/
def weightedMedian (pairs : List (ℚ × ℚ)) : ℚ :=
  if pairs = [] then 0
  else
    let arr := List.insertionSort pairLe pairs
    wmGo ((arr.map Prod.snd).sum) 0 arr

/-- `np.percentile(vals, q)` with the default linear interpolation:
the value at position (n−1)·q/100 of the ascending sort, interpolating
between the two neighbouring entries. -/
def npPercentile (vals : List ℚ) (q : ℚ) : ℚ :=
  let s := List.insertionSort (fun a b : ℚ => a ≤ b) vals
  let pos : ℚ := ((vals.length : ℚ) - 1) * q / 100
  let lo : ℕ := (⌊pos⌋).toNat
  let a := s.getD lo 0
  let b := s.getD (min (lo + 1) (vals.length - 1)) 0
  a + (pos - lo) * (b - a)

/-- Lines 131-136 of `estimate_skew_pairs`: the IQR trim of the collected
(value, weight) pairs, with fallback to the untrimmed list via
`[...] or pairs`, then the weighted median and the trimmed count. -/
def skewFromPairs (pairs : List (ℚ × ℚ)) : ℚ × ℕ :=
  if pairs = [] then (0, 0)
  else
    let vals := pairs.map Prod.fst
    let q1 := npPercentile vals 25
    let q3 := npPercentile vals 75
    let lo := q1 - 3 / 2 * (q3 - q1)
    let hi := q3 + 3 / 2 * (q3 - q1)
    let t := pairs.filter fun p => decide (lo ≤ p.1) && decide (p.1 ≤ hi)
    let trimmed := if t = [] then pairs else t
    (weightedMedian trimmed, trimmed.length)

/-- Modelled from the spec (claim C6 wording): the trim keeps pairs whose
angle lies in [Q1 − 1.5·IQR, Q3 + 1.5·IQR] and falls back to the untrimmed
set if trimming empties it. -/
def specIqrTrimmed (pairs : List (ℚ × ℚ)) : List (ℚ × ℚ) :=
  let vals := pairs.map Prod.fst
  let q1 := npPercentile vals 25
  let q3 := npPercentile vals 75
  let lo := q1 - 3 / 2 * (q3 - q1)
  let hi := q3 + 3 / 2 * (q3 - q1)
  let t := pairs.filter fun p => decide (lo ≤ p.1) && decide (p.1 ≤ hi)
  if t = [] then pairs else t

/-! ## Rotation with expanded bounds (source lines 158-184), over the reals -/

/-- Degrees to radians. -/
noncomputable def deg2rad (a : ℝ) : ℝ := a * Real.pi / 180

/-- Python `int()`: truncation toward zero. -/
noncomputable def pyInt (x : ℝ) : ℤ := if 0 ≤ x then ⌊x⌋ else -⌊-x⌋

/-- An affine plane map `(x, y) ↦ (a·x + b·y + c, d·x + e·y + f)` — one
2 × 3 matrix as produced by `cv2.getRotationMatrix2D` after the translation
fix-up of `rotation_matrix_keep_bounds`. -/
structure Affine where
  a : ℝ
  b : ℝ
  c : ℝ
  d : ℝ
  e : ℝ
  f : ℝ

/-- Apply the affine map to a point (the source computes
`M @ [cx, cy, 1]`). -/
noncomputable def applyAffine (M : Affine) (p : ℝ × ℝ) : ℝ × ℝ :=
  (M.a * p.1 + M.b * p.2 + M.c, M.d * p.1 + M.e * p.2 + M.f)

/-- `rotation_matrix_keep_bounds(shape_hw, angle_deg)` (lines 158-167):
`cv2.getRotationMatrix2D(center, angle, 1.0)` about the image centre is
`[[α, β, (1−α)·cx − β·cy], [−β, α, β·cx + (1−α)·cy]]` with α, β the cosine
and sine of the angle; the canvas grows to
`(int(h·|sin| + w·|cos|), int(h·|cos| + w·|sin|))` and the translation is
shifted by `new/2 − centre` (`new_w/2` is Python float division).  Returns
the matrix and the new shape `(nh, nw)`. -/
noncomputable def rotationMatrixKeepBounds (shape : ℤ × ℤ) (angleDeg : ℝ) :
    Affine × (ℤ × ℤ) :=
  let h : ℝ := (shape.1 : ℝ)
  let w : ℝ := (shape.2 : ℝ)
  let cx := w / 2
  let cy := h / 2
  let al := Real.cos (deg2rad angleDeg)
  let be := Real.sin (deg2rad angleDeg)
  let nw : ℤ := pyInt (h * |be| + w * |al|)
  let nh : ℤ := pyInt (h * |al| + w * |be|)
  (⟨al, be, (1 - al) * cx - be * cy + ((nw : ℝ) / 2 - cx),
    -be, al, be * cx + (1 - al) * cy + ((nh : ℝ) / 2 - cy)⟩,
   (nh, nw))

/-- `transform_words(words, shape_hw, angle_deg)` restricted to the
centroids it maps: each (cx, cy) goes through the bounds-expanding
matrix. -/
noncomputable def transformCentroids (shape : ℤ × ℤ) (angleDeg : ℝ)
    (ps : List (ℝ × ℝ)) : List (ℝ × ℝ) :=
  ps.map (applyAffine (rotationMatrixKeepBounds shape angleDeg).1)

/-- A concrete skew angle, in degrees, whose cosine and sine are exactly
3/5 and 4/5. -/
noncomputable def rotCexAngle : ℝ := Real.arctan (4 / 3) * 180 / Real.pi

/-- Modelled from the spec (claim C6 wording): the weighted median as the
value at which cumulative weight first reaches half the total weight, over
values sorted ascending; `none` when no prefix reaches half. -/
def specFirstHalfReach (pairs : List (ℚ × ℚ)) : Option ℚ :=
  let arr := List.insertionSort pairLe pairs
  let tot := (arr.map Prod.snd).sum
  ((List.range arr.length).find? fun i =>
      decide (tot / 2 ≤ ((arr.take (i + 1)).map Prod.snd).sum)).map
    fun i => (arr.getD i (0, 0)).1

/-! ## Deskew candidate construction and grid search
(source lines 381-400) -/

/-- Lines 381-384: candidate angles from the two estimators and their
negations, gated on sample counts of at least 10, with the zero
fallback. -/
def mkCandidates (ah : ℚ) (nh : ℕ) (ap2 : ℚ) (np2 : ℕ) : List ℚ :=
  let c1 : List ℚ := if 10 ≤ nh then [ah, -ah] else []
  let c2 : List ℚ := if 10 ≤ np2 then [ap2, -ap2] else []
  if c1 ++ c2 = [] then [0] else c1 ++ c2

/-- Lines 386-390: clamp each candidate to [−clamp, clamp] and keep it
only when farther than 0.05 from every kept angle. -/
def clampDedup (clamp : ℚ) (candidates : List ℚ) : List ℚ :=
  candidates.foldl
    (fun acc a =>
      if acc.all fun b => decide (1 / 20 < |max (-clamp) (min clamp a) - b|)
      then acc ++ [max (-clamp) (min clamp a)]
      else acc)
    []

/-- The fine-grid offsets of line 394. -/
def gridOffsets : List ℚ := [-3/5, -2/5, -1/5, 0, 1/5, 2/5, 3/5]

/-- Lines 392-397: the 7-point grid around each kept candidate, again
deduplicated within 0.05.  The offset sums are never re-clamped. -/
def buildGrid (cand : List ℚ) : List ℚ :=
  cand.foldl
    (fun grid a =>
      gridOffsets.foldl
        (fun grid2 d =>
          if grid2.all fun x => decide (1 / 20 < |a + d - x|) then
            grid2 ++ [a + d]
          else grid2)
        grid)
    []

/-- Lines 399-400: score each grid angle with `preview_score(img, -a)` and
take the angle of minimum cost, first occurrence winning ties (Python
`min` over the scored pairs with the cost as key).  The scorer is a
function parameter standing for the raster preview cost; the 0 of the
empty-grid arm is unreachable (the grid is never empty). -/
def chooseAngle (grid : List ℚ) (score : ℚ → ℚ) : ℚ :=
  match grid with
  | [] => 0
  | g :: rest =>
    rest.foldl (fun best a => if score (-a) < score (-best) then a else best) g

/-- Lines 381-400 composed: the deskew angle chosen by
`smart_deskew_with_lines`, as a function of the two estimator outputs, the
clamp and the preview scorer. -/
def smartDeskewAngle (ah : ℚ) (nh : ℕ) (ap2 : ℚ) (np2 : ℕ) (clamp : ℚ)
    (score : ℚ → ℚ) : ℚ :=
  chooseAngle (buildGrid (clampDedup clamp (mkCandidates ah nh ap2 np2)))
    score

/-! ## Geometry utilities (source lines 197-249) over exact rationals -/

/-- A fitted line: finite slope and intercept, or the vertical marker
`(inf, x0)` that `line_from_points` and `refit_line` return in their
degenerate branches. -/
inductive FitLine where
  | fin (m b : ℚ)
  | vert (x0 : ℚ)
deriving DecidableEq, Repr

/-- `line_from_points(p0, p1)` (lines 197-202): vertical when
`|dx| < 1e-9`, else slope `(y1−y0)/dx` and intercept `y0 − m·x0`. -/
def lineFromPoints (p0 p1 : ℚ × ℚ) : FitLine :=
  if |p1.1 - p0.1| < 1 / 1000000000 then .vert p0.1
  else
    .fin ((p1.2 - p0.2) / (p1.1 - p0.1))
      (p0.2 - (p1.2 - p0.2) / (p1.1 - p0.1) * p0.1)

/-- `perp_distance(m, b, x, y) <= tol` (lines 204-206) in decidable square
form: the distance is `|m·x − y + b| / √(m² + 1)` (and `|x − b|` for the
vertical marker), so for tol ≥ 0 the comparison is equivalent to the
squared inequality below, which stays inside the rationals. -/
def perpWithin (L : FitLine) (tol x y : ℚ) : Prop :=
  match L with
  | .fin m b => (m * x - y + b) ^ 2 ≤ tol ^ 2 * (m ^ 2 + 1)
  | .vert x0 => (x - x0) ^ 2 ≤ tol ^ 2

instance (L : FitLine) (tol x y : ℚ) : Decidable (perpWithin L tol x y) := by
  unfold perpWithin
  cases L <;> infer_instance

/-- `refit_line(points)` (lines 208-217): least squares through the
points, the vertical marker when the x-variance is below 1e-12, the
horizontal line through a single point.  (The empty list never reaches
this function in the source; the rational division by zero then yields the
harmless `fin 0 0`.) -/
def refitLine (pts : List (ℚ × ℚ)) : FitLine :=
  match pts with
  | [p] => .fin 0 p.2
  | _ =>
    let n : ℚ := (pts.length : ℚ)
    let xm := (pts.map Prod.fst).sum / n
    let ym := (pts.map Prod.snd).sum / n
    let num := (pts.map fun p => (p.1 - xm) * (p.2 - ym)).sum
    let den := (pts.map fun p => (p.1 - xm) ^ 2).sum
    if |den| < 1 / 1000000000000 then .vert xm
    else .fin (num / den) (ym - num / den * xm)

/-- `project_t(m, b, x0, y0, x, y)` (lines 219-222) is used only as a sort
key; dropping the division by the positive constant `√(1 + m²)` preserves
the order, so the key here is the numerator (and `y − y0` for the vertical
marker). -/
def projKey (L : FitLine) (x0 y0 x y : ℚ) : ℚ :=
  match L with
  | .fin m _ => (x - x0) + m * (y - y0)
  | .vert _ => y - y0

/-- Comparison by a rational key (a Python `key=` sort). -/
def keyLe (f : ℕ → ℚ) (i j : ℕ) : Prop := f i ≤ f j

instance (f : ℕ → ℚ) : DecidableRel (keyLe f) := fun i j => by
  unfold keyLe
  infer_instance

/-- One reconstructed Line (the dict of `_build_line_result`,
lines 242-249): joined text, fitted line, centroid, word count, and the
member indices in projection order (standing for the `words` list). -/
structure Line where
  text : String
  slope : FitLine
  centerX : ℚ
  centerY : ℚ
  count : ℕ
  members : List ℕ
deriving DecidableEq, Repr

/-- Order of the final per-function sort `key=center_y`. -/
def lineLe (a b : Line) : Prop := a.centerY ≤ b.centerY

instance : DecidableRel lineLe := fun a b => by
  unfold lineLe
  infer_instance

/-- `_build_line_result(words, idxs, m, b)` (lines 224-249) over indexed
coordinates: the origin is a word of minimal x (Python `min` over a set —
tie order is set-iteration-dependent; here the first minimum of the given
index list), the members are ordered by the projection key along the
fitted line (Python stable sort over the set — here a stable sort of the
given list), and the text joins their texts with single spaces. -/
def buildLineResult (txt : ℕ → String) (px py : ℕ → ℚ) (idxs : List ℕ)
    (L : FitLine) : Line :=
  let origin := idxs.foldl (fun b i => if px i < px b then i else b)
    (idxs.headD 0)
  let ordered := List.insertionSort
    (keyLe fun i => projKey L (px origin) (py origin) (px i) (py i)) idxs
  { text := String.intercalate " " (ordered.map txt)
    slope := L
    centerX := (ordered.map px).sum / (ordered.length : ℚ)
    centerY := (ordered.map py).sum / (ordered.length : ℚ)
    count := ordered.length
    members := ordered }

/-- The median word height used by both the clusterer and the grouper:
`hs[len(hs)//2]` of the ascending heights, 16 when empty. -/
def hMedOf (hs : List ℚ) : ℚ :=
  if hs = [] then 16
  else (List.insertionSort (fun a b : ℚ => a ≤ b) hs).getD (hs.length / 2) 0

/-! ## Tilted-line clustering (source lines 251-302) -/

/-- Indexing into the word list (out-of-range indices never occur in the
source; the default keeps the function total). -/
def wAt (ws : List Word) (i : ℕ) : Word := ws.getD i ⟨"", 0, 0, 0, 0⟩

/-- `perp_tol = 0.6 × median height`. -/
def clusterTol (ws : List Word) : ℚ :=
  3 / 5 * hMedOf ((ws.filter fun w => decide (0 < w.h)).map Word.h)

/-- `band_dy = 3.0 × median height`. -/
def clusterBand (ws : List Word) : ℚ :=
  3 * hMedOf ((ws.filter fun w => decide (0 < w.h)).map Word.h)

/-- The (cy, cx) processing order on indices. -/
def idxLe (ws : List Word) (i j : ℕ) : Prop :=
  (wAt ws i).cy < (wAt ws j).cy ∨
    ((wAt ws i).cy = (wAt ws j).cy ∧ (wAt ws i).cx ≤ (wAt ws j).cx)

instance (ws : List Word) : DecidableRel (idxLe ws) := fun i j => by
  unfold idxLe
  infer_instance

/-- Inliers of a trial line (lines 278-282): the seed, the candidate, and
every remaining word within the perpendicular tolerance, as a finite set
(the source uses a Python set). -/
def trialInliers (ws : List Word) (tol : ℚ) (rem1 : List ℕ) (seed j : ℕ)
    (L : FitLine) : Finset ℕ :=
  {seed, j} ∪ (rem1.filter fun k =>
    decide (perpWithin L tol (wAt ws k).cx (wAt ws k).cy)).toFinset

/-- The trial line through the seed and candidate `j`. -/
def trialLine (ws : List Word) (seed j : ℕ) : FitLine :=
  lineFromPoints ((wAt ws seed).cx, (wAt ws seed).cy)
    ((wAt ws j).cx, (wAt ws j).cy)

/-- Lines 275-284: among the candidates, keep the trial with the most
inliers — strictly more to replace, so the first maximum wins.  (The empty
candidate list never reaches this function.) -/
def bestTrial (ws : List Word) (tol : ℚ) (rem1 : List ℕ) (seed : ℕ) :
    List ℕ → Finset ℕ × FitLine
  | [] => (∅, .fin 0 0)
  | j0 :: rest =>
    rest.foldl
      (fun best j =>
        if best.1.card <
            (trialInliers ws tol rem1 seed j (trialLine ws seed j)).card then
          (trialInliers ws tol rem1 seed j (trialLine ws seed j),
            trialLine ws seed j)
        else best)
      (trialInliers ws tol rem1 seed j0 (trialLine ws seed j0),
        trialLine ws seed j0)

/-- Ascending enumeration of a finite set of indices: the embedding of
Python's `sorted(s)` for a set of word indices.  Written as a filter of
an initial segment (rather than `Finset.sort`, whose merge sort is
well-founded recursion) so that it evaluates under `decide`; the segment
bound `sup + 1` covers every element, so the enumeration lists exactly
the elements of `s` in increasing order. -/
def finsetAsc (s : Finset ℕ) : List ℕ :=
  (List.range (s.sup id + 1)).filter fun i => decide (i ∈ s)

/-- One iteration of the while loop (lines 262-299) for a given seed:
build one Line (ALLOW_SINGLETON is True, so a seed with no band candidates
still emits its singleton line) and return it with the new remaining
pool.  The remaining pool is kept as an ascending index list; the source
uses a Python set, whose iteration order no step result depends on. -/
def clusterOnce (ws : List Word) (tol band : ℚ) (remaining : List ℕ)
    (seed : ℕ) : Line × List ℕ :=
  let rem1 := remaining.erase seed
  let sx := (wAt ws seed).cx
  let sy := (wAt ws seed).cy
  let cands := rem1.filter fun j => decide (|(wAt ws j).cy - sy| ≤ band)
  if cands = [] then
    (buildLineResult (fun i => (wAt ws i).text) (fun i => (wAt ws i).cx)
      (fun i => (wAt ws i).cy) [seed] (refitLine [(sx, sy)]), rem1)
  else
    let top := (List.insertionSort
      (keyLe fun j => |(wAt ws j).cx - sx|) cands).take 10
    let best := bestTrial ws tol rem1 seed top
    let L2 := refitLine ((finsetAsc best.1).map fun i =>
      ((wAt ws i).cx, (wAt ws i).cy))
    let expanded := best.1 ∪ (rem1.filter fun k =>
      decide (perpWithin L2 tol (wAt ws k).cx (wAt ws k).cy)).toFinset
    (buildLineResult (fun i => (wAt ws i).text) (fun i => (wAt ws i).cx)
      (fun i => (wAt ws i).cy) (finsetAsc expanded) L2,
     rem1.filter fun i => decide (i ∉ expanded))

/-- The while loop of lines 258-301, with explicit fuel for structural
recursion: every iteration removes at least its seed from the remaining
pool, so fuel equal to the word count never runs out. -/
def clusterLoop (ws : List Word) (tol band : ℚ) (order : List ℕ) :
    ℕ → List ℕ → List Line
  | 0, _ => []
  | _ + 1, [] => []
  | fuel + 1, remaining =>
    match order.find? fun i => decide (i ∈ remaining) with
    | none => []
    | some seed =>
      (clusterOnce ws tol band remaining seed).1 ::
        clusterLoop ws tol band order fuel
          (clusterOnce ws tol band remaining seed).2

/-- `cluster_tilted_lines(words)` (lines 251-302). -/
def clusterTiltedLines (ws : List Word) : List Line :=
  if ws = [] then []
  else
    List.insertionSort lineLe
      (clusterLoop ws (clusterTol ws) (clusterBand ws)
        (List.insertionSort (idxLe ws) (List.range ws.length))
        ws.length (List.range ws.length))

/-- The initial seed: the first index in (cy, cx) order. -/
def firstSeed (ws : List Word) : ℕ :=
  (List.insertionSort (idxLe ws) (List.range ws.length)).headD 0

/-- The up-to-10 horizontally nearest band candidates of the initial
seed: the trial candidates of the first iteration. -/
def seedTrials (ws : List Word) : List ℕ :=
  let seed := firstSeed ws
  let rem1 := (List.range ws.length).erase seed
  let cands := rem1.filter fun j =>
    decide (|(wAt ws j).cy - (wAt ws seed).cy| ≤ clusterBand ws)
  (List.insertionSort
    (keyLe fun j => |(wAt ws j).cx - (wAt ws seed).cx|) cands).take 10

/-- The best-trial fold, abstracted over the inlier map. -/
def foldBest (T : ℕ → Finset ℕ) (Lf : ℕ → FitLine)
    (init : Finset ℕ × FitLine) (l : List ℕ) : Finset ℕ × FitLine :=
  l.foldl (fun best j => if best.1.card < (T j).card then (T j, Lf j)
    else best) init

/-- C8 counterexample input: three words with centroids exactly on the
line y = 0, x-coordinates 0, 5e-10 and 9e-10, heights 1e-12.  Every
pairwise horizontal distance is below the 1e-9 vertical-marker threshold
of `line_from_points`, so every trial line is the vertical through the
seed, and the inlier test on it rejects the far points. -/
def cexC8 : List Word :=
  [⟨"a", 10, 1 / 1000000000000, 0, 0⟩,
   ⟨"b", 10, 1 / 1000000000000, 1 / 2000000000, 0⟩,
   ⟨"c", 10, 1 / 1000000000000, 9 / 10000000000, 0⟩]

/-- A well-separated colinear triple on the line 2x - y = 0. -/
def okC8 : List Word :=
  [⟨"a", 10, 10, 0, 0⟩, ⟨"b", 10, 10, 5, 10⟩, ⟨"c", 10, 10, 9, 18⟩]

/-! ## Horizontal grouping after rotation (source lines 307-341) -/

/-- A rotated word: recognised text, height, rotated centroid (the only
fields `group_horizontal_lines` reads). -/
structure RWord where
  text : String
  h : ℚ
  cxRot : ℚ
  cyRot : ℚ
deriving DecidableEq, Repr

/-- Indexing into the rotated word list. -/
def rwAt (ws : List RWord) (i : ℕ) : RWord := ws.getD i ⟨"", 0, 0, 0⟩

/-- `y_tol = 0.55 × median height` (lines 309-311). -/
def ghlTol (ws : List RWord) : ℚ :=
  11 / 20 * hMedOf ((ws.filter fun w => decide (0 < w.h)).map RWord.h)

/-- The (rotated-y, rotated-x) walk order on indices (line 314). -/
def rIdxLe (ws : List RWord) (i j : ℕ) : Prop :=
  (rwAt ws i).cyRot < (rwAt ws j).cyRot ∨
    ((rwAt ws i).cyRot = (rwAt ws j).cyRot ∧
      (rwAt ws i).cxRot ≤ (rwAt ws j).cxRot)

instance (ws : List RWord) : DecidableRel (rIdxLe ws) := fun i j => by
  unfold rIdxLe
  infer_instance

/-- `flush()` (lines 318-326): refit through the band points and append
the built Line; an empty band appends nothing. -/
def ghlFlush (ws : List RWord) (cur : List ℕ) (lines : List Line) :
    List Line :=
  if cur = [] then lines
  else
    lines ++ [buildLineResult (fun i => (rwAt ws i).text)
      (fun i => (rwAt ws i).cxRot) (fun i => (rwAt ws i).cyRot) cur
      (refitLine (cur.map fun i => ((rwAt ws i).cxRot, (rwAt ws i).cyRot)))]

/-- One step of the walk (lines 328-338): an empty band starts with the
word; otherwise the word joins exactly when its rotated-y is within
`y_tol` of the band FIRST member (`cur[0]`), and otherwise the band is
flushed and a new one starts. -/
def ghlStep (ws : List RWord) (yTol : ℚ) :
    List Line × List ℕ → ℕ → List Line × List ℕ
  | (lines, cur), i =>
    match cur with
    | [] => (lines, [i])
    | i0 :: _ =>
      if |(rwAt ws i).cyRot - (rwAt ws i0).cyRot| ≤ yTol then
        (lines, cur ++ [i])
      else
        (ghlFlush ws cur lines, [i])

/-- `group_horizontal_lines(rotated_words)` (lines 307-341). -/
def groupHorizontalLines (ws : List RWord) : List Line :=
  if ws = [] then []
  else
    let res := (List.insertionSort (rIdxLe ws)
      (List.range ws.length)).foldl (ghlStep ws (ghlTol ws)) ([], [])
    List.insertionSort lineLe (ghlFlush ws res.2 res.1)

end DentalOCR

namespace DentalOCR

/-! ## Theorems: claims C1 to C4 -/

/-- The last three amounts, explicitly, when at least three are present. -/
theorem lastThree_of_three_le {l : List ℚ} (h : 3 ≤ l.length) :
    [(lastThree l).1, (lastThree l).2.1, (lastThree l).2.2] =
      (l.drop (l.length - 3)).map some := by
  have hlen : (l.drop (l.length - 3)).length = 3 := by simp; omega
  unfold lastThree
  match hd : l.drop (l.length - 3), hlen with
  | [b, a, p], _ => simp

/-- With fewer than three amounts all three slots stay `None`. -/
theorem lastThree_of_lt_three {l : List ℚ} (h : l.length < 3) :
    lastThree l = (none, none, none) := by
  unfold lastThree
  have h0 : l.length - 3 = 0 := by omega
  rw [h0, List.drop_zero]
  match l, h with
  | [], _ => rfl
  | [a], _ => rfl
  | [a, b], _ => rfl

/-- A successful parse exposes the record fields. -/
theorem parsePDLine_some {t : String} {p : PDParse}
    (hp : parsePDLine t = some p) :
    ∃ g, pdRowSearch t = some g ∧
      p = ⟨normCode g,
        (lastThree ((amountFindall t).map ratOfAmount)).1,
        (lastThree ((amountFindall t).map ratOfAmount)).2.1,
        (lastThree ((amountFindall t).map ratOfAmount)).2.2,
        date6Search t,
        (toothSurfaceOfLine t (normCode g)).1,
        (toothSurfaceOfLine t (normCode g)).2⟩ := by
  unfold parsePDLine at hp
  cases hg : pdRowSearch t with
  | none => rw [hg] at hp; cases hp
  | some g =>
    rw [hg] at hp
    exact ⟨g, rfl, (Option.some_inj.mp hp).symm⟩

/-- C1: on the input lines whose texts are the ICN line `123456789012`, a
filler line, the header `MEMBER NAME: JOHN SMITH MEMBER ID: AB1234` (two
lines below the ICN line) and the detail line
`PD D2160 5 O 061524 110.00 92.00 92.00`, the extractor returns exactly one
row with name John Smith, id AB1234, ICN 123456789012, code D2160, tooth 5,
date 061524, amounts 110.00 / 92.00 / 92.00 and success true; the parse of
the detail line extracts surface O (the emitted dict itself has no Surface
key: that column is commented out in the source). -/
theorem C1_concrete_scenario :
    extractAllClients ["123456789012", "",
        "MEMBER NAME: JOHN SMITH MEMBER ID: AB1234",
        "PD D2160 5 O 061524 110.00 92.00 92.00"] =
      [⟨"John Smith", "AB1234", "123456789012", "D2160", "5", "061524",
        some 110, some 92, some 92, true⟩] ∧
    (parsePDLine "PD D2160 5 O 061524 110.00 92.00 92.00").map PDParse.surface =
      some (some "O") := by
  constructor
  · decide
  · decide

/-- C2: for every detail line on which PD_ROW_RE finds a code and at least
three AMOUNT_RE money tokens occur, the parsed billed, allowed and paid
amounts are exactly the last three such tokens in left-to-right order,
never earlier ones. -/
theorem C2_last_three_amounts (t : String) (p : PDParse)
    (hp : parsePDLine t = some p) (h3 : 3 ≤ (amountFindall t).length) :
    [p.billed, p.allowed, p.paid] =
      (((amountFindall t).map ratOfAmount).drop
        ((amountFindall t).length - 3)).map some := by
  obtain ⟨g, hg, hrec⟩ := parsePDLine_some hp
  subst hrec
  have h3m : 3 ≤ ((amountFindall t).map ratOfAmount).length := by simpa using h3
  have hlast := lastThree_of_three_le h3m
  simpa using hlast

/-- Witness for C2 at the scenario detail line. -/
theorem C2_last_three_amounts_witness :
    3 ≤ (amountFindall "PD D2160 5 O 061524 110.00 92.00 92.00").length ∧
    [some (110 : ℚ), some 92, some 92] =
      (((amountFindall "PD D2160 5 O 061524 110.00 92.00 92.00").map
          ratOfAmount).drop
        ((amountFindall "PD D2160 5 O 061524 110.00 92.00 92.00").length -
          3)).map some :=
  ⟨by decide,
   C2_last_three_amounts "PD D2160 5 O 061524 110.00 92.00 92.00"
     ⟨"D2160", some 110, some 92, some 92, some "061524", some "5", some "O"⟩
     (by decide) (by decide)⟩

/-- C3 counterexample: in the block with texts `MEMBER NAME: JANE ROE` and
`PD D0120`, the candidate detail line has a procedure code but fewer than
three money tokens; the claim says such a line is dropped and contributes no
Billing Row, yet the extractor emits a detail row carrying code D0120 (and
no placeholder). -/
theorem C3_cex :
    extractAllClients ["MEMBER NAME: JANE ROE", "PD D0120"] =
      [⟨"Jane Roe", "", "", "D0120", "", "", none, none, none, true⟩] ∧
    hasPDToken "PD D0120" = true ∧
    (amountFindall "PD D0120").length < 3 ∧
    ¬ (("D0120" : String) = "") :=
  ⟨by decide, by decide, by decide, by decide⟩

/-- C3 amended: only a missing procedure code drops a candidate detail line.
A member block emits exactly one row per candidate line whose parse
succeeds, with the single placeholder appearing exactly when none succeeds
(count `max 1 0`); and a line that parses but has fewer than three money
tokens still contributes its row, with the three amount fields empty. -/
theorem C3_amended_drop_only_missing_code :
    (∀ texts start stop : _,
       (blockRows texts start stop).length =
         max 1 ((((texts.drop start).take (stop - start)).filter
           hasPDToken).filterMap parsePDLine).length) ∧
    (∀ t p, parsePDLine t = some p → (amountFindall t).length < 3 →
       p.billed = none ∧ p.allowed = none ∧ p.paid = none) := by
  constructor
  · intro texts start stop
    simp only [blockRows]
    split
    · rename_i hdet
      rw [hdet]
      simp
    · rename_i hdet
      have hpos : 0 <
          ((((texts.drop start).take (stop - start)).filter
            hasPDToken).filterMap parsePDLine).length :=
        List.length_pos.mpr hdet
      simp
      omega
  · intro t p hp hlt
    obtain ⟨g, hg, hrec⟩ := parsePDLine_some hp
    subst hrec
    have hlt2 : ((amountFindall t).map ratOfAmount).length < 3 := by
      simpa using hlt
    simp [lastThree_of_lt_three hlt2]

/-- Witness for the C3 amended statement at the counterexample block. -/
theorem C3_amended_drop_only_missing_code_witness :
    (blockRows ["MEMBER NAME: JANE ROE", "PD D0120"] 0 2).length =
      max 1 (((((["MEMBER NAME: JANE ROE", "PD D0120"] : List String).drop
        0).take (2 - 0)).filter hasPDToken).filterMap parsePDLine).length ∧
    ((⟨"D0120", none, none, none, none, none, none⟩ : PDParse).billed = none ∧
      (⟨"D0120", none, none, none, none, none, none⟩ : PDParse).allowed = none ∧
      (⟨"D0120", none, none, none, none, none, none⟩ : PDParse).paid = none) :=
  ⟨C3_amended_drop_only_missing_code.1 ["MEMBER NAME: JANE ROE", "PD D0120"] 0 2,
   C3_amended_drop_only_missing_code.2 "PD D0120"
     ⟨"D0120", none, none, none, none, none, none⟩ (by decide) (by decide)⟩

/-- C4 counterexample: on the line
`123456 PD D2160 061524 1.00 2.00 3.00` the emitted service date is the
6-digit token `123456` that occurs before the procedure code, not the first
6-digit token after the code (`061524`), contradicting the claim. -/
theorem C4_cex :
    (parsePDLine "123456 PD D2160 061524 1.00 2.00 3.00").map PDParse.date =
      some (some "123456") ∧
    specDateAfterCode "123456 PD D2160 061524 1.00 2.00 3.00" =
      some "061524" ∧
    ¬ (("123456" : String) = "061524") :=
  ⟨by decide, by decide, by decide⟩

/-- C4 amended: the service date of a parsed detail line is the first
6-digit token of the whole line, scanning left to right, regardless of its
position relative to the procedure code (the after-code search of the
source is used only to bound the tooth and surface window). -/
theorem C4_amended_date_first_anywhere (t : String) (p : PDParse)
    (hp : parsePDLine t = some p) : p.date = date6Search t := by
  obtain ⟨g, hg, hrec⟩ := parsePDLine_some hp
  subst hrec
  rfl

/-- Witness for the C4 amended statement at the counterexample line. -/
theorem C4_amended_date_first_anywhere_witness :
    (some "123456" : Option String) =
      date6Search "123456 PD D2160 061524 1.00 2.00 3.00" :=
  C4_amended_date_first_anywhere "123456 PD D2160 061524 1.00 2.00 3.00"
    ⟨"D2160", some 1, some 2, some 3, some "123456", none, none⟩ (by decide)

/-! ## Theorems: claims C5 and C6 -/

/-- The step function preserves the stored-dx invariant. -/
theorem partnerStep_dx (wi wk : Word) (yb md : ℚ) :
    ∀ best : Option (Word × ℚ),
    (∀ bw bdx, best = some (bw, bdx) → bdx = bw.cx - wi.cx) →
    ∀ bw bdx, partnerStep wi yb md wk best = some (bw, bdx) →
      bdx = bw.cx - wi.cx := by
  intro best hinv bw bdx hb
  match best, hinv with
  | none, hinv =>
    simp only [partnerStep] at hb
    split at hb
    · cases hb; rfl
    · cases hb
  | some (bw0, bdx0), hinv =>
    simp only [partnerStep] at hb
    split at hb
    · split at hb
      · cases hb; rfl
      · cases hb; exact hinv _ _ rfl
    · exact hinv bw bdx hb

/-- The best-partner fold stores with each candidate its horizontal
displacement from the fixed left word. -/
theorem bestPartner_dx : ∀ (l : List Word) (wi : Word) (yb md : ℚ)
    (best : Option (Word × ℚ)),
    (∀ bw bdx, best = some (bw, bdx) → bdx = bw.cx - wi.cx) →
    ∀ wj dx, bestPartner wi yb md l best = some (wj, dx) →
      dx = wj.cx - wi.cx := by
  intro l
  induction l with
  | nil => intro wi yb md best hinv wj dx h; exact hinv wj dx h
  | cons wk rest ih =>
    intro wi yb md best hinv wj dx h
    have he : bestPartner wi yb md (wk :: rest) best =
        if yb < wk.cy - wi.cy then best
        else bestPartner wi yb md rest (partnerStep wi yb md wk best) := rfl
    rw [he] at h
    split at h
    · exact hinv wj dx h
    · exact ih wi yb md _ (partnerStep_dx wi wk yb md best hinv) wj dx h

/-- Every sample the outer loop collects keeps weight `max 1 dx`. -/
theorem collectFrom_weight : ∀ (l : List Word) (yb md : ℚ) (s : PairSample),
    s ∈ collectFrom yb md l → s.weight = max 1 (s.wj.cx - s.wi.cx) := by
  intro l
  induction l with
  | nil => intro yb md s hs; simp [collectFrom] at hs
  | cons wi rest ih =>
    intro yb md s hs
    rw [collectFrom, List.mem_append] at hs
    cases hs with
    | inr h => exact ih yb md s h
    | inl h =>
      cases hb : bestPartner wi yb md rest none with
      | none => rw [hb] at h; simp at h
      | some p =>
        obtain ⟨wj, dx⟩ := p
        rw [hb] at h
        have hdx := bestPartner_dx rest wi yb md none
          (by intro _ _ hh; cases hh) wj dx hb
        by_cases hang : angleOK (wj.cy - wi.cy) dx
        · simp [hang] at h
          subst h
          simp [hdx]
        · simp [hang] at h

/-- C5 amended: for every word pair that contributes a sample, the weight
is the horizontal displacement dx of the pair clamped to at least 1 — not
the euclidean displacement distance. -/
theorem C5_amended_weight_is_dx (words : List Word) (s : PairSample)
    (hs : s ∈ collectPairs words) :
    s.weight = max 1 (s.wj.cx - s.wi.cx) := by
  unfold collectPairs at hs
  split at hs
  · simp at hs
  · exact collectFrom_weight _ _ _ s hs

/-- Witness for the C5 amended statement: the concrete two-word layout
(0,0), (40,10) contributes the sample of weight 40. -/
theorem C5_amended_weight_is_dx_witness :
    (⟨⟨"a", 10, 10, 0, 0⟩, ⟨"b", 10, 10, 40, 10⟩, 40⟩ : PairSample).weight =
      max 1 ((⟨"b", 10, 10, 40, 10⟩ : Word).cx -
        (⟨"a", 10, 10, 0, 0⟩ : Word).cx) :=
  C5_amended_weight_is_dx
    [⟨"a", 10, 10, 0, 0⟩, ⟨"b", 10, 10, 40, 10⟩] _ (by decide)

/-- C5 counterexample: the pair (0,0)-(40,10) (dy ≠ 0, angle ≈ 14° within
the ±15° filter) contributes exactly one sample, of weight 40; the claimed
weight, the clamped displacement distance √(40² + 10²) = √1700 ≈ 41.23, is
not 40. -/
theorem C5_cex :
    collectPairs [⟨"a", 10, 10, 0, 0⟩, ⟨"b", 10, 10, 40, 10⟩] =
      [⟨⟨"a", 10, 10, 0, 0⟩, ⟨"b", 10, 10, 40, 10⟩, 40⟩] ∧
    ¬ ((40 : ℝ) =
        max 1 (Real.sqrt (((40 : ℝ) - 0) ^ 2 + ((10 : ℝ) - 0) ^ 2))) := by
  constructor
  · decide
  · intro heq
    have hs : (((40 : ℝ) - 0) ^ 2 + ((10 : ℝ) - 0) ^ 2) = 1700 := by norm_num
    rw [hs] at heq
    have h1 : (1 : ℝ) ≤ Real.sqrt 1700 := by
      rw [show (1 : ℝ) = Real.sqrt 1 from Real.sqrt_one.symm]
      exact Real.sqrt_le_sqrt (by norm_num)
    rw [max_eq_right h1] at heq
    have hsq := Real.sq_sqrt (show (0 : ℝ) ≤ 1700 by norm_num)
    rw [← heq] at hsq
    norm_num at hsq

/-- The `weighted_median` loop returns the value at the first index of the
sorted list whose cumulative weight (on top of the accumulator) reaches
half the total, provided some prefix reaches it. -/
theorem wmGo_spec (tot : ℚ) : ∀ (l : List (ℚ × ℚ)) (acc : ℚ),
    l ≠ [] → tot / 2 ≤ acc + ((l.map Prod.snd).sum) →
    ∃ i, ((List.range l.length).find? fun i =>
        decide (tot / 2 ≤ acc + (((l.take (i + 1)).map Prod.snd).sum))) =
          some i ∧
      wmGo tot acc l = (l.getD i (0, 0)).1 := by
  intro l
  induction l with
  | nil => intro acc hne; exact absurd rfl hne
  | cons p rest ih =>
    obtain ⟨v, w⟩ := p
    intro acc hne hsum
    cases rest with
    | nil =>
      have hfirst : tot / 2 ≤ acc + w := by simpa using hsum
      refine ⟨0, ?_, ?_⟩
      · simp [hfirst]
      · have hgo : wmGo tot acc [(v, w)] =
            if tot / 2 ≤ acc + w then v else v := rfl
        rw [hgo, if_pos hfirst]
        rfl
    | cons q rest2 =>
      have hgo : wmGo tot acc ((v, w) :: q :: rest2) =
          if tot / 2 ≤ acc + w then v
          else wmGo tot (acc + w) (q :: rest2) := rfl
      by_cases hfirst : tot / 2 ≤ acc + w
      · refine ⟨0, ?_, ?_⟩
        · rw [List.length_cons, List.range_succ_eq_map]
          rw [List.find?_cons_of_pos _ (by simpa using hfirst)]
        · rw [hgo, if_pos hfirst]
          rfl
      · have hsum2 : tot / 2 ≤
            (acc + w) + (((q :: rest2).map Prod.snd).sum) := by
          simp at hsum ⊢
          linarith
        obtain ⟨i, hfind, hval⟩ := ih (acc + w) (by simp) hsum2
        refine ⟨i + 1, ?_, ?_⟩
        · rw [List.length_cons, List.range_succ_eq_map]
          rw [List.find?_cons_of_neg _ (by simpa using hfirst)]
          rw [List.find?_map]
          have hpred : ((fun i => decide (tot / 2 ≤ acc +
              ((((v, w) :: q :: rest2).take (i + 1)).map
                Prod.snd).sum)) ∘ Nat.succ) =
              fun i => decide (tot / 2 ≤ (acc + w) +
                (((q :: rest2).take (i + 1)).map Prod.snd).sum) := by
            funext j
            simp [Function.comp, Nat.succ_eq_add_one, add_assoc]
          rw [hpred, hfind]
          rfl
        · rw [hgo, if_neg hfirst, hval]
          rfl

/-- `weighted_median` computes the value of the claim: the first value, in
ascending value order, at which cumulative weight reaches half the total
(weights at least 1 guarantee such a value exists). -/
theorem weightedMedian_spec {l : List (ℚ × ℚ)} (hne : l ≠ [])
    (hw : ∀ p ∈ l, 1 ≤ p.2) :
    specFirstHalfReach l = some (weightedMedian l) := by
  have hperm := List.perm_insertionSort pairLe l
  have harrne : List.insertionSort pairLe l ≠ [] := by
    intro h
    rw [h] at hperm
    exact hne (List.Perm.eq_nil hperm.symm)
  have harrw : ∀ p ∈ List.insertionSort pairLe l, 1 ≤ p.2 := by
    intro p hp
    exact hw p (hperm.mem_iff.mp hp)
  have htot : 0 ≤ ((List.insertionSort pairLe l).map Prod.snd).sum := by
    apply List.sum_nonneg
    intro x hx
    obtain ⟨p, hp, hpx⟩ := List.mem_map.mp hx
    have := harrw p hp
    rw [← hpx]
    linarith
  have hsum : ((List.insertionSort pairLe l).map Prod.snd).sum / 2 ≤
      0 + ((List.insertionSort pairLe l).map Prod.snd).sum := by
    linarith
  obtain ⟨i, hfind, hval⟩ :=
    wmGo_spec ((List.insertionSort pairLe l).map Prod.snd).sum
      (List.insertionSort pairLe l) 0 harrne hsum
  simp only [zero_add] at hfind
  simp only [specFirstHalfReach, weightedMedian]
  rw [if_neg hne]
  rw [hfind, hval]
  rfl

/-- C6: for a non-empty pair collection with the weights the estimator
attaches (all at least 1), the returned angle is the weighted median — the
value at which cumulative weight first reaches half the total, values
sorted ascending — of the IQR-trimmed set (trim to
[Q1 − 1.5·IQR, Q3 + 1.5·IQR], falling back to the untrimmed set when the
trim empties), and the returned count is the trimmed set size. -/
theorem C6_weighted_median_of_trimmed (pairs : List (ℚ × ℚ))
    (hne : pairs ≠ []) (hw : ∀ p ∈ pairs, 1 ≤ p.2) :
    specFirstHalfReach (specIqrTrimmed pairs) ≠ none ∧
    skewFromPairs pairs =
      ((specFirstHalfReach (specIqrTrimmed pairs)).getD 0,
        (specIqrTrimmed pairs).length) := by
  have hskew : skewFromPairs pairs =
      (weightedMedian (specIqrTrimmed pairs),
        (specIqrTrimmed pairs).length) := by
    simp only [skewFromPairs, specIqrTrimmed]
    rw [if_neg hne]
  have htne : specIqrTrimmed pairs ≠ [] := by
    simp only [specIqrTrimmed]
    split
    · exact hne
    · assumption
  have htw : ∀ p ∈ specIqrTrimmed pairs, 1 ≤ p.2 := by
    intro p hp
    simp only [specIqrTrimmed] at hp
    split at hp
    · exact hw p hp
    · exact hw p (List.mem_of_mem_filter hp)
  have hmed := weightedMedian_spec htne htw
  constructor
  · rw [hmed]
    simp
  · rw [hskew, hmed]
    rfl

/-- The round trip by θ then −θ (on the expanded shape) translates every
point by the difference between the twice-expanded and the original canvas
centres. -/
theorem roundtrip_point (shape : ℤ × ℤ) (θ : ℝ) (p : ℝ × ℝ) :
    applyAffine (rotationMatrixKeepBounds
        (rotationMatrixKeepBounds shape θ).2 (-θ)).1
      (applyAffine (rotationMatrixKeepBounds shape θ).1 p) =
    (p.1 - (shape.2 : ℝ) / 2 +
       ((rotationMatrixKeepBounds
          (rotationMatrixKeepBounds shape θ).2 (-θ)).2.2 : ℝ) / 2,
     p.2 - (shape.1 : ℝ) / 2 +
       ((rotationMatrixKeepBounds
          (rotationMatrixKeepBounds shape θ).2 (-θ)).2.1 : ℝ) / 2) := by
  have hneg : deg2rad (-θ) = -(deg2rad θ) := by
    unfold deg2rad
    ring
  have hpyth := Real.sin_sq_add_cos_sq (deg2rad θ)
  simp only [rotationMatrixKeepBounds, applyAffine, hneg, Real.cos_neg,
    Real.sin_neg, abs_neg]
  rw [Prod.mk.injEq]
  constructor
  · linear_combination (p.1 - (shape.2 : ℝ) / 2) * hpyth
  · linear_combination (p.2 - (shape.1 : ℝ) / 2) * hpyth

/-- C7 amended: rotating a word set by θ and then by −θ on the expanded
canvas shape does not return the original centroids; it returns every
centroid translated by one common offset, the difference between the
twice-expanded and the original canvas centres (which is zero only when
the truncated expanded dimensions happen to map back). -/
theorem C7_amended_roundtrip_translation (shape : ℤ × ℤ) (θ : ℝ)
    (ps : List (ℝ × ℝ)) :
    transformCentroids (rotationMatrixKeepBounds shape θ).2 (-θ)
        (transformCentroids shape θ ps) =
      ps.map (fun p =>
        (p.1 - (shape.2 : ℝ) / 2 +
           ((rotationMatrixKeepBounds
              (rotationMatrixKeepBounds shape θ).2 (-θ)).2.2 : ℝ) / 2,
         p.2 - (shape.1 : ℝ) / 2 +
           ((rotationMatrixKeepBounds
              (rotationMatrixKeepBounds shape θ).2 (-θ)).2.1 : ℝ) / 2)) := by
  unfold transformCentroids
  rw [List.map_map]
  apply List.map_congr_left
  intro p hp
  exact roundtrip_point shape θ p

/-- C7 counterexample: for the 100 × 100 image and the angle whose cosine
and sine are 3/5 and 4/5, the round trip maps the centroid (0, 0) to
(48, 48) — off by 48 pixels, far beyond floating-point tolerance — because
the canvas grows to 140 × 140 and then to 196 × 196 and the centre offset
is never undone. -/
theorem C7_cex :
    applyAffine (rotationMatrixKeepBounds
        (rotationMatrixKeepBounds (100, 100) rotCexAngle).2 (-rotCexAngle)).1
      (applyAffine (rotationMatrixKeepBounds (100, 100) rotCexAngle).1
        (0, 0)) = (48, 48) ∧
    (1 : ℝ) < |(48 : ℝ) - 0| := by
  have hrad : deg2rad rotCexAngle = Real.arctan (4 / 3) := by
    unfold deg2rad rotCexAngle
    field_simp
  have hsqrt : Real.sqrt (1 + (4 / 3 : ℝ) ^ 2) = 5 / 3 := by
    rw [show (1 : ℝ) + (4 / 3 : ℝ) ^ 2 = (5 / 3) ^ 2 by norm_num]
    exact Real.sqrt_sq (by norm_num)
  have hc : Real.cos (deg2rad rotCexAngle) = 3 / 5 := by
    rw [hrad, Real.cos_arctan, hsqrt]
    norm_num
  have hs : Real.sin (deg2rad rotCexAngle) = 4 / 5 := by
    rw [hrad, Real.sin_arctan, hsqrt]
    norm_num
  have habs3 : |(3 : ℝ) / 5| = 3 / 5 := by
    rw [abs_of_pos]
    norm_num
  have habs4 : |(4 : ℝ) / 5| = 4 / 5 := by
    rw [abs_of_pos]
    norm_num
  have hshape1 : (rotationMatrixKeepBounds (100, 100) rotCexAngle).2 =
      (140, 140) := by
    simp only [rotationMatrixKeepBounds, hc, hs, habs3, habs4]
    rw [Prod.mk.injEq]
    norm_num [pyInt]
  have hrt := roundtrip_point (100, 100) rotCexAngle (0, 0)
  have hneg : deg2rad (-rotCexAngle) = -(deg2rad rotCexAngle) := by
    unfold deg2rad
    ring
  have hshape2 : (rotationMatrixKeepBounds
      (rotationMatrixKeepBounds (100, 100) rotCexAngle).2
        (-rotCexAngle)).2 = (196, 196) := by
    rw [hshape1]
    simp only [rotationMatrixKeepBounds, hneg, Real.cos_neg, Real.sin_neg,
      abs_neg, hc, hs, habs3, habs4]
    rw [Prod.mk.injEq]
    norm_num [pyInt]
  constructor
  · rw [hrt, hshape2]
    norm_num
  · norm_num

/-- Fold invariant for the conditional-append folds of the grid
construction. -/
theorem foldl_append_inv {α β : Type} (P : β → Prop)
    (f : List β → α → List β) :
    ∀ l : List α,
      (∀ acc a x, a ∈ l → (∀ y ∈ acc, P y) → x ∈ f acc a → P x) →
      ∀ acc : List β, (∀ y ∈ acc, P y) → ∀ x ∈ l.foldl f acc, P x := by
  intro l
  induction l with
  | nil => intro hf acc hacc x hx; exact hacc x hx
  | cons a rest ih =>
    intro hf acc hacc x hx
    exact ih (fun acc2 b y hb => hf acc2 b y (List.mem_cons_of_mem a hb))
      (f acc a) (fun y hy => hf acc a y (List.mem_cons_self a rest) hacc hy)
      x hx

/-- Every clamped candidate lies in [−clamp, clamp]. -/
theorem clampDedup_bound (clamp : ℚ) (hc : 0 ≤ clamp) (l : List ℚ) :
    ∀ x ∈ clampDedup clamp l, |x| ≤ clamp := by
  unfold clampDedup
  apply foldl_append_inv (fun x => |x| ≤ clamp)
  · intro acc a x _ hacc hx
    split at hx
    · rw [List.mem_append] at hx
      cases hx with
      | inl h => exact hacc x h
      | inr h =>
        simp at h
        subst h
        rw [abs_le]
        refine ⟨le_max_left _ _, max_le (by linarith) (min_le_left _ _)⟩
    · exact hacc x hx
  · intro y hy
    cases hy

/-- Every grid angle is a kept candidate plus one offset, hence at most
clamp + 0.6 in absolute value. -/
theorem buildGrid_bound (clamp : ℚ) (hc : 0 ≤ clamp) (cand : List ℚ)
    (hcand : ∀ a ∈ cand, |a| ≤ clamp) :
    ∀ x ∈ buildGrid cand, |x| ≤ clamp + 3 / 5 := by
  unfold buildGrid
  apply foldl_append_inv (fun x => |x| ≤ clamp + 3 / 5)
  · intro grid a x ha hgrid hx
    revert hx
    apply foldl_append_inv (fun x => |x| ≤ clamp + 3 / 5)
    · intro grid2 d x2 hd hgrid2 hx2
      split at hx2
      · rw [List.mem_append] at hx2
        cases hx2 with
        | inl h => exact hgrid2 x2 h
        | inr h =>
          simp at h
          subst h
          have hda : |d| ≤ 3 / 5 := by
            simp [gridOffsets] at hd
            rcases hd with h | h | h | h | h | h | h <;> subst h <;>
              rw [abs_le] <;> constructor <;> norm_num
          calc |a + d| ≤ |a| + |d| := abs_add a d
            _ ≤ clamp + 3 / 5 := add_le_add (hcand a ha) hda
      · exact hgrid2 x2 hx2
    · exact hgrid
  · intro y hy
    cases hy

/-- The chosen angle is a grid member when the grid is non-empty. -/
theorem chooseAngle_mem (grid : List ℚ) (score : ℚ → ℚ) (hne : grid ≠ []) :
    chooseAngle grid score ∈ grid := by
  match grid with
  | g :: rest =>
    unfold chooseAngle
    have hfold : ∀ (l : List ℚ) (b : ℚ), b ∈ g :: rest →
        (∀ a ∈ l, a ∈ g :: rest) →
        l.foldl (fun best a => if score (-a) < score (-best) then a
          else best) b ∈ g :: rest := by
      intro l
      induction l with
      | nil => intro b hb _; exact hb
      | cons a rest2 ih =>
        intro b hb hl
        have hstep : (if score (-a) < score (-b) then a else b) ∈ g :: rest := by
          split
          · exact hl a (List.mem_cons_self a rest2)
          · exact hb
        exact ih _ hstep (fun a2 ha2 => hl a2 (List.mem_cons_of_mem a ha2))
    exact hfold rest g (List.mem_cons_self g rest)
      (fun a ha => List.mem_cons_of_mem g ha)

set_option maxRecDepth 4000 in
/-- C10: the deskew angle finally chosen after the grid search has
absolute value at most clamp + 0.6 (30.6 at the default clamp 30), and it
can exceed the clamp itself by up to 0.6: the 7-point grid offsets are
added after each candidate is clamped and the sums are never re-clamped —
with a Hough estimate of 31 at 10 samples and a preview cost minimised at
30.6, the chosen angle is exactly 30.6 > 30. -/
theorem C10_grid_angle_bound :
    (∀ (ah : ℚ) (nh : ℕ) (ap2 : ℚ) (np2 : ℕ) (clamp : ℚ) (score : ℚ → ℚ),
       0 ≤ clamp →
       |smartDeskewAngle ah nh ap2 np2 clamp score| ≤ clamp + 3 / 5) ∧
    (smartDeskewAngle 31 10 0 0 30 (fun x => |x + 153 / 5|) = 153 / 5 ∧
      (30 : ℚ) < 153 / 5) := by
  constructor
  · intro ah nh ap2 np2 clamp score hc
    unfold smartDeskewAngle
    by_cases hg :
        buildGrid (clampDedup clamp (mkCandidates ah nh ap2 np2)) = []
    · rw [hg]
      unfold chooseAngle
      rw [abs_of_nonneg le_rfl]
      linarith
    · exact buildGrid_bound clamp hc _
        (clampDedup_bound clamp hc _) _ (chooseAngle_mem _ score hg)
  · exact ⟨by decide, by norm_num⟩

/-- Witness for the C10 bound at the concrete configuration of its second
conjunct. -/
theorem C10_grid_angle_bound_witness :
    |smartDeskewAngle 31 10 0 0 30 (fun x => |x + 153 / 5|)| ≤ 30 + 3 / 5 :=
  C10_grid_angle_bound.1 31 10 0 0 30 (fun x => |x + 153 / 5|) (by norm_num)

/-- C9: in the grouper walk over (rotated-y, rotated-x) order, with a
non-empty current band, a word joins the band exactly when its rotated-y
differs from the band FIRST word by at most y_tol (equality included); a
strictly greater difference flushes the band and starts a new one; and
the decision depends only on the band first member — never on the later
members, hence never on a running mean. -/
theorem C9_band_first_threshold :
    (∀ (ws : List RWord) (lines : List Line) (i0 : ℕ) (rest : List ℕ)
       (i : ℕ),
       |(rwAt ws i).cyRot - (rwAt ws i0).cyRot| ≤ ghlTol ws →
       ghlStep ws (ghlTol ws) (lines, i0 :: rest) i =
         (lines, (i0 :: rest) ++ [i])) ∧
    (∀ (ws : List RWord) (lines : List Line) (i0 : ℕ) (rest : List ℕ)
       (i : ℕ),
       ghlTol ws < |(rwAt ws i).cyRot - (rwAt ws i0).cyRot| →
       ghlStep ws (ghlTol ws) (lines, i0 :: rest) i =
         (ghlFlush ws (i0 :: rest) lines, [i])) ∧
    (∀ (ws : List RWord) (lines lines2 : List Line) (i0 i : ℕ)
       (rest rest2 : List ℕ),
       (ghlStep ws (ghlTol ws) (lines, i0 :: rest) i).2 =
           (i0 :: rest) ++ [i] ↔
         (ghlStep ws (ghlTol ws) (lines2, i0 :: rest2) i).2 =
           (i0 :: rest2) ++ [i]) := by
  have he : ∀ (ws : List RWord) (lines : List Line) (i0 : ℕ)
      (rest : List ℕ) (i : ℕ),
      ghlStep ws (ghlTol ws) (lines, i0 :: rest) i =
        if |(rwAt ws i).cyRot - (rwAt ws i0).cyRot| ≤ ghlTol ws then
          (lines, (i0 :: rest) ++ [i])
        else (ghlFlush ws (i0 :: rest) lines, [i]) :=
    fun ws lines i0 rest i => rfl
  refine ⟨?_, ?_, ?_⟩
  · intro ws lines i0 rest i h
    rw [he, if_pos h]
  · intro ws lines i0 rest i h
    rw [he, if_neg (not_le.mpr h)]
  · intro ws lines lines2 i0 i rest rest2
    rw [he, he]
    by_cases h : |(rwAt ws i).cyRot - (rwAt ws i0).cyRot| ≤ ghlTol ws
    · rw [if_pos h, if_pos h]
      show ((i0 :: rest) ++ [i] = (i0 :: rest) ++ [i]) ↔
        ((i0 :: rest2) ++ [i] = (i0 :: rest2) ++ [i])
      simp
    · rw [if_neg h, if_neg h]
      show ([i] = (i0 :: rest) ++ [i]) ↔ ([i] = (i0 :: rest2) ++ [i])
      constructor <;> intro hh <;>
        · have hlen := congrArg List.length hh
          simp at hlen

/-- Witness for C9: two words whose rotated-y difference is exactly y_tol
(10, with heights 200/11) are placed in the same band. -/
theorem C9_band_first_threshold_witness :
    ghlStep [⟨"x", 200 / 11, 0, 0⟩, ⟨"y", 200 / 11, 5, 10⟩]
        (ghlTol [⟨"x", 200 / 11, 0, 0⟩, ⟨"y", 200 / 11, 5, 10⟩])
        ([], [0]) 1 =
      ([], [0] ++ [1]) :=
  C9_band_first_threshold.1 [⟨"x", 200 / 11, 0, 0⟩, ⟨"y", 200 / 11, 5, 10⟩]
    [] 0 [] 1 (by decide)

/-- Valid indices address members of the word list. -/
theorem wAt_mem {ws : List Word} {i : ℕ} (h : i < ws.length) :
    wAt ws i ∈ ws := by
  unfold wAt
  rw [List.getD_eq_getElem ws _ h]
  exact List.getElem_mem h

/-- The member order of a built line is a permutation of the given index
list; in particular the count is its length. -/
theorem buildLineResult_count (txt : ℕ → String) (px py : ℕ → ℚ)
    (idxs : List ℕ) (L : FitLine) :
    (buildLineResult txt px py idxs L).count = idxs.length := by
  unfold buildLineResult
  simp [List.length_insertionSort]

/-- The loop does nothing on an empty pool. -/
theorem clusterLoop_nil (ws : List Word) (tol band : ℚ) (order : List ℕ) :
    ∀ fuel, clusterLoop ws tol band order fuel [] = [] := by
  intro fuel
  cases fuel with
  | zero => rfl
  | succ f => rfl

/-- One unfolding of the loop on a non-empty pool whose seed is known. -/
theorem clusterLoop_cons (ws : List Word) (tol band : ℚ) (order : List ℕ)
    (fuel : ℕ) (remaining : List ℕ) (seed : ℕ) (hne : remaining ≠ [])
    (hfind : order.find? (fun i => decide (i ∈ remaining)) = some seed) :
    clusterLoop ws tol band order (fuel + 1) remaining =
      (clusterOnce ws tol band remaining seed).1 ::
        clusterLoop ws tol band order fuel
          (clusterOnce ws tol band remaining seed).2 := by
  match remaining, hne with
  | r :: rs, _ =>
    have he : clusterLoop ws tol band order (fuel + 1) (r :: rs) =
        match order.find? fun i => decide (i ∈ r :: rs) with
        | none => []
        | some seed2 =>
          (clusterOnce ws tol band (r :: rs) seed2).1 ::
            clusterLoop ws tol band order fuel
              (clusterOnce ws tol band (r :: rs) seed2).2 := rfl
    rw [he, hfind]

/-- The initial seed is the head of the processing order, and the find of
the first iteration returns it. -/
theorem firstSeed_find (ws : List Word) (hne : ws ≠ []) :
    (List.insertionSort (idxLe ws) (List.range ws.length)).find?
        (fun i => decide (i ∈ List.range ws.length)) =
      some (firstSeed ws) ∧ firstSeed ws < ws.length := by
  have hlen : (List.insertionSort (idxLe ws)
      (List.range ws.length)).length = ws.length := by
    simp [List.length_insertionSort]
  have hpos : 0 < ws.length := List.length_pos.mpr hne
  obtain ⟨h, t, hht⟩ : ∃ h t, List.insertionSort (idxLe ws)
      (List.range ws.length) = h :: t := by
    cases hs : List.insertionSort (idxLe ws) (List.range ws.length) with
    | nil => rw [hs] at hlen; simp at hlen; omega
    | cons h t => exact ⟨h, t, rfl⟩
  have hmem : h ∈ List.range ws.length := by
    have : h ∈ List.insertionSort (idxLe ws) (List.range ws.length) := by
      rw [hht]; exact List.mem_cons_self h t
    exact (List.perm_insertionSort (idxLe ws) (List.range ws.length)).mem_iff.mp
      this
  constructor
  · rw [hht]
    rw [List.find?_cons_of_pos _ (by simpa using hmem)]
    unfold firstSeed
    rw [hht]
    rfl
  · have : firstSeed ws = h := by unfold firstSeed; rw [hht]; rfl
    rw [this]
    simpa using hmem

/-- The fold result is the initial trial or one of the list trials, its
inlier count never drops below the initial one, and it dominates every
trial of the list. -/
theorem foldBest_spec (T : ℕ → Finset ℕ) (Lf : ℕ → FitLine) :
    ∀ (l : List ℕ) (init : Finset ℕ × FitLine),
      ((foldBest T Lf init l).1 = init.1 ∨
        ∃ j ∈ l, (foldBest T Lf init l).1 = T j) ∧
      init.1.card ≤ (foldBest T Lf init l).1.card ∧
      ∀ j ∈ l, (T j).card ≤ (foldBest T Lf init l).1.card := by
  intro l
  induction l with
  | nil => intro init; exact ⟨Or.inl rfl, le_rfl, by simp⟩
  | cons a rest ih =>
    intro init
    have hstep : foldBest T Lf init (a :: rest) =
        foldBest T Lf
          (if init.1.card < (T a).card then (T a, Lf a) else init) rest := rfl
    by_cases hlt : init.1.card < (T a).card
    · rw [hstep, if_pos hlt]
      obtain ⟨hmem, hinit, hall⟩ := ih (T a, Lf a)
      refine ⟨?_, le_trans (le_of_lt hlt) hinit, ?_⟩
      · cases hmem with
        | inl h => exact Or.inr ⟨a, List.mem_cons_self a rest, h⟩
        | inr h =>
          obtain ⟨j, hj, hh⟩ := h
          exact Or.inr ⟨j, List.mem_cons_of_mem a hj, hh⟩
      · intro j hj
        rcases List.mem_cons.mp hj with h | h
        · subst h
          exact hinit
        · exact hall j h
    · rw [hstep, if_neg hlt]
      obtain ⟨hmem, hinit, hall⟩ := ih init
      refine ⟨?_, hinit, ?_⟩
      · cases hmem with
        | inl h => exact Or.inl h
        | inr h =>
          obtain ⟨j, hj, hh⟩ := h
          exact Or.inr ⟨j, List.mem_cons_of_mem a hj, hh⟩
      · intro j hj
        rcases List.mem_cons.mp hj with h | h
        · subst h
          exact le_trans (le_of_not_lt hlt) hinit
        · exact hall j h

/-- The trial inliers are always inside the seed-plus-pool universe. -/
theorem trialInliers_subset {ws : List Word} {tol : ℚ} {rem1 : List ℕ}
    {seed j : ℕ} {L : FitLine} (hj : j ∈ rem1) :
    trialInliers ws tol rem1 seed j L ⊆ insert seed rem1.toFinset := by
  unfold trialInliers
  intro x hx
  simp at hx ⊢
  rcases hx with h | h | h
  · exact Or.inl h
  · exact Or.inr (h ▸ hj)
  · exact Or.inr h.1

/-- When every pool word passes the perpendicular test, the trial inliers
are the whole universe. -/
theorem trialInliers_univ {ws : List Word} {tol : ℚ} {rem1 : List ℕ}
    {seed j : ℕ} {L : FitLine} (hj : j ∈ rem1)
    (hall : ∀ k ∈ rem1, perpWithin L tol (wAt ws k).cx (wAt ws k).cy) :
    trialInliers ws tol rem1 seed j L = insert seed rem1.toFinset := by
  unfold trialInliers
  ext x
  simp
  constructor
  · rintro (h | h | h)
    · exact Or.inl h
    · exact Or.inr (h ▸ hj)
    · exact Or.inr h.1
  · rintro (h | h)
    · exact Or.inl h
    · exact Or.inr (Or.inr ⟨h, hall x h⟩)

/-- When some candidate trial reaches the whole universe, the best trial
is the whole universe. -/
theorem bestTrial_univ (ws : List Word) (tol : ℚ) (rem1 : List ℕ)
    (seed : ℕ) (top : List ℕ) (htop : ∀ j ∈ top, j ∈ rem1)
    (hfull : ∃ j ∈ top, trialInliers ws tol rem1 seed j
      (trialLine ws seed j) = insert seed rem1.toFinset) :
    (bestTrial ws tol rem1 seed top).1 = insert seed rem1.toFinset := by
  match top, hfull with
  | j0 :: rest, hfull =>
    have hbt : bestTrial ws tol rem1 seed (j0 :: rest) =
        foldBest (fun j => trialInliers ws tol rem1 seed j
            (trialLine ws seed j)) (fun j => trialLine ws seed j)
          (trialInliers ws tol rem1 seed j0 (trialLine ws seed j0),
            trialLine ws seed j0) rest := rfl
    rw [hbt]
    obtain ⟨hmem, hinit, hall⟩ := foldBest_spec
      (fun j => trialInliers ws tol rem1 seed j (trialLine ws seed j))
      (fun j => trialLine ws seed j)
      rest
      (trialInliers ws tol rem1 seed j0 (trialLine ws seed j0),
        trialLine ws seed j0)
    have hsub : (foldBest (fun j => trialInliers ws tol rem1 seed j
        (trialLine ws seed j)) (fun j => trialLine ws seed j)
          (trialInliers ws tol rem1 seed j0 (trialLine ws seed j0),
            trialLine ws seed j0) rest).1 ⊆ insert seed rem1.toFinset := by
      cases hmem with
      | inl h => rw [h]; exact trialInliers_subset (htop j0 (List.mem_cons_self j0 rest))
      | inr h =>
        obtain ⟨j, hj, hh⟩ := h
        rw [hh]
        exact trialInliers_subset (htop j (List.mem_cons_of_mem j0 hj))
    have hcard : (insert seed rem1.toFinset).card ≤
        (foldBest (fun j => trialInliers ws tol rem1 seed j
          (trialLine ws seed j)) (fun j => trialLine ws seed j)
            (trialInliers ws tol rem1 seed j0 (trialLine ws seed j0),
              trialLine ws seed j0) rest).1.card := by
      obtain ⟨jf, hjf, hfu⟩ := hfull
      rcases List.mem_cons.mp hjf with h | h
      · subst h
        rw [← hfu]
        exact hinit
      · have := hall jf h
        rw [hfu] at this
        exact this
    exact (Finset.eq_of_subset_of_card_le hsub hcard)

/-- Colinearity makes every point lie exactly on the trial line through
two of its points with distinct x. -/
theorem colinear_on_trial (A B C : ℚ) (hAB : ¬(A = 0 ∧ B = 0))
    (sx sy xj yj xk yk : ℚ) (hs : A * sx + B * sy = C)
    (hj : A * xj + B * yj = C) (hk : A * xk + B * yk = C)
    (hdx : xj - sx ≠ 0) :
    (yj - sy) / (xj - sx) * xk - yk +
      (sy - (yj - sy) / (xj - sx) * sx) = 0 := by
  have hB : B ≠ 0 := by
    intro hB0
    have hA : A ≠ 0 := fun hA0 => hAB ⟨hA0, hB0⟩
    apply hdx
    have h1 : A * sx = C := by rw [hB0] at hs; linarith
    have h2 : A * xj = C := by rw [hB0] at hj; linarith
    have : A * (xj - sx) = 0 := by ring_nf; linarith
    rcases mul_eq_zero.mp this with h | h
    · exact absurd h hA
    · linarith
  have h1 : B * (yj - sy) = -(A * (xj - sx)) := by ring_nf; linarith
  have h2 : B * (yk - sy) = -(A * (xk - sx)) := by ring_nf; linarith
  have key : (yj - sy) * (xk - sx) - (yk - sy) * (xj - sx) = 0 := by
    have hBk : B * ((yj - sy) * (xk - sx) - (yk - sy) * (xj - sx)) = 0 := by
      linear_combination (xk - sx) * h1 - (xj - sx) * h2
    rcases mul_eq_zero.mp hBk with h | h
    · exact absurd h hB
    · exact h
  field_simp
  linear_combination key

/-- The no-candidate branch of one iteration: the singleton line is
emitted (ALLOW_SINGLETON is True) and the pool only loses the seed. -/
theorem finsetAsc_length (s : Finset ℕ) : (finsetAsc s).length = s.card := by
  have hnd : ((List.range (s.sup id + 1)).filter
      fun i => decide (i ∈ s)).Nodup := (List.nodup_range _).filter _
  have htf : ((List.range (s.sup id + 1)).filter
      fun i => decide (i ∈ s)).toFinset = s := by
    ext x
    simp only [List.mem_toFinset, List.mem_filter, List.mem_range,
      decide_eq_true_eq]
    constructor
    · exact fun h => h.2
    · intro h
      have hle : id x ≤ s.sup id := Finset.le_sup h
      exact ⟨Nat.lt_succ_of_le hle, h⟩
  calc (finsetAsc s).length
      = ((List.range (s.sup id + 1)).filter
          fun i => decide (i ∈ s)).toFinset.card :=
        (List.toFinset_card_of_nodup hnd).symm
    _ = s.card := by rw [htf]

theorem clusterOnce_nocands (ws : List Word) (tol band : ℚ)
    (remaining : List ℕ) (seed : ℕ)
    (hc : (remaining.erase seed).filter
        (fun j => decide (|(wAt ws j).cy - (wAt ws seed).cy| ≤ band)) = []) :
    (clusterOnce ws tol band remaining seed).2 = remaining.erase seed ∧
    (clusterOnce ws tol band remaining seed).1.count = 1 := by
  simp only [clusterOnce]
  rw [hc, if_pos rfl]
  exact ⟨rfl, buildLineResult_count _ _ _ _ _⟩

/-- The main branch of one iteration when every pool word is a band
candidate and the best trial captures the whole universe: everything is
absorbed into a single line and the pool empties. -/
theorem clusterOnce_consume (ws : List Word) (tol band : ℚ)
    (remaining : List ℕ) (seed : ℕ)
    (hfilter : (remaining.erase seed).filter
        (fun j => decide (|(wAt ws j).cy - (wAt ws seed).cy| ≤ band)) =
      remaining.erase seed)
    (hne : remaining.erase seed ≠ [])
    (hbest : (bestTrial ws tol (remaining.erase seed) seed
        ((List.insertionSort
          (keyLe fun j => |(wAt ws j).cx - (wAt ws seed).cx|)
          (remaining.erase seed)).take 10)).1 =
      insert seed (remaining.erase seed).toFinset) :
    (clusterOnce ws tol band remaining seed).2 = [] ∧
    (clusterOnce ws tol band remaining seed).1.count =
      (insert seed (remaining.erase seed).toFinset).card := by
  have hexp : ∀ p : ℕ → Bool,
      insert seed (remaining.erase seed).toFinset ∪
        ((remaining.erase seed).filter p).toFinset =
      insert seed (remaining.erase seed).toFinset := by
    intro p
    apply Finset.union_eq_left.mpr
    intro x hx
    simp at hx
    exact Finset.mem_insert_of_mem (List.mem_toFinset.mpr hx.1)
  have hnil : (remaining.erase seed).filter
      (fun i => decide (i ∉ insert seed (remaining.erase seed).toFinset)) =
        [] := by
    rw [List.filter_eq_nil_iff]
    intro a ha
    simp
    intro _
    exact ha
  simp only [clusterOnce]
  rw [hfilter, if_neg hne, hbest, hexp, hnil]
  refine ⟨rfl, ?_⟩
  rw [buildLineResult_count]
  exact finsetAsc_length _

set_option maxHeartbeats 1000000 in
/-- C8 amended: a non-empty word set with all centroids exactly on one
common line (A·x + B·y = C, (A, B) ≠ 0) and all within one seed band of
each other vertically is placed into a single output Line containing all
the words, PROVIDED the first trial search is non-degenerate: the set is a
singleton, or all centroids share the seed x (a vertical common line), or
one of the up-to-10 horizontally nearest band candidates of the initial
seed lies at horizontal distance at least 1e-9 from it.  (Without that
proviso every trial line can collapse to the vertical marker of
`line_from_points` and the clusterer splits the set: see the
counterexample.) -/
theorem C8_amended_colinear_single_line (ws : List Word) (A B C : ℚ)
    (hne : ws ≠ []) (hAB : ¬(A = 0 ∧ B = 0))
    (hcol : ∀ w ∈ ws, A * w.cx + B * w.cy = C)
    (hband : ∀ w1 ∈ ws, ∀ w2 ∈ ws, |w1.cy - w2.cy| ≤ clusterBand ws)
    (hgood : ws.length = 1 ∨
      (∀ w ∈ ws, w.cx = (wAt ws (firstSeed ws)).cx) ∨
      ∃ j ∈ seedTrials ws,
        1 / 1000000000 ≤ |(wAt ws j).cx - (wAt ws (firstSeed ws)).cx|) :
    (clusterTiltedLines ws).length = 1 ∧
    ∀ l ∈ clusterTiltedLines ws, l.count = ws.length := by
  obtain ⟨hfind, hseedlt⟩ := firstSeed_find ws hne
  set n := ws.length with hn
  set seed := firstSeed ws with hseed
  set rem1 := (List.range n).erase seed with hrem1
  have hnpos : 0 < n := List.length_pos.mpr hne
  have hjmem : ∀ j ∈ rem1, j < n := by
    intro j hj
    have := List.mem_of_mem_erase hj
    simpa using this
  have hfilter : rem1.filter
      (fun j => decide (|(wAt ws j).cy - (wAt ws seed).cy| ≤
        clusterBand ws)) = rem1 := by
    apply List.filter_eq_self.mpr
    intro j hj
    simp only [decide_eq_true_eq]
    exact hband (wAt ws j) (wAt_mem (hjmem j hj)) (wAt ws seed)
      (wAt_mem hseedlt)
  have hONE : (clusterOnce ws (clusterTol ws) (clusterBand ws)
        (List.range n) seed).2 = [] ∧
      (clusterOnce ws (clusterTol ws) (clusterBand ws)
        (List.range n) seed).1.count = n := by
    by_cases h1 : n = 1
    · have hs0 : seed = 0 := by omega
      have hr : rem1 = [] := by
        rw [hrem1, h1, hs0]
        rfl
      have hc : rem1.filter
          (fun j => decide (|(wAt ws j).cy - (wAt ws seed).cy| ≤
            clusterBand ws)) = [] := by
        rw [hr]
        rfl
      obtain ⟨h2, hcount⟩ := clusterOnce_nocands ws (clusterTol ws)
        (clusterBand ws) (List.range n) seed hc
      refine ⟨?_, by rw [hcount, h1]⟩
      rw [h2, ← hrem1, hr]
    · have hn2 : 2 ≤ n := by omega
      have hnodup : (List.range n).Nodup := List.nodup_range n
      have hr1len : rem1.length = n - 1 := by
        rw [hrem1, List.length_erase_of_mem (by simpa using hseedlt)]
        simp
      have hrne : rem1 ≠ [] := by
        intro h
        rw [h] at hr1len
        simp at hr1len
        omega
      set top := (List.insertionSort
        (keyLe fun j => |(wAt ws j).cx - (wAt ws seed).cx|) rem1).take 10
        with htop
      have htopmem : ∀ j ∈ top, j ∈ rem1 := by
        intro j hj
        have h2 := List.mem_of_mem_take hj
        exact (List.perm_insertionSort _ rem1).mem_iff.mp h2
      have htopne : top ≠ [] := by
        intro h
        have hlen := congrArg List.length h
        rw [htop] at hlen
        rw [List.length_take, List.length_insertionSort, hr1len] at hlen
        simp at hlen
        omega
      have hst : seedTrials ws = top := by
        rw [htop]
        simp only [seedTrials]
        rw [← hseed, ← hn, ← hrem1, hfilter]
      have hfull : ∃ j ∈ top, trialInliers ws (clusterTol ws) rem1 seed j
          (trialLine ws seed j) = insert seed rem1.toFinset := by
        rcases hgood with h1' | hvert | hgoodj
        · exact absurd h1' h1
        · obtain ⟨j0, t0, hj0⟩ : ∃ j0 t0, top = j0 :: t0 := by
            cases htt : top with
            | nil => exact absurd htt htopne
            | cons a b => exact ⟨a, b, rfl⟩
          have hj0t : j0 ∈ top := by
            rw [hj0]
            exact List.mem_cons_self j0 t0
          have hj0r : j0 ∈ rem1 := htopmem j0 hj0t
          refine ⟨j0, hj0t, ?_⟩
          have hx : (wAt ws j0).cx = (wAt ws seed).cx :=
            hvert _ (wAt_mem (hjmem j0 hj0r))
          have hLv : trialLine ws seed j0 = .vert (wAt ws seed).cx := by
            unfold trialLine lineFromPoints
            rw [if_pos (by rw [hx]; norm_num)]
          rw [hLv]
          apply trialInliers_univ hj0r
          intro k hk
          have hk2 : (wAt ws k).cx = (wAt ws seed).cx :=
            hvert _ (wAt_mem (hjmem k hk))
          show ((wAt ws k).cx - (wAt ws seed).cx) ^ 2 ≤ clusterTol ws ^ 2
          rw [hk2]
          simp
          positivity
        · obtain ⟨j, hjst, hjdx⟩ := hgoodj
          rw [hst] at hjst
          have hjr : j ∈ rem1 := htopmem j hjst
          refine ⟨j, hjst, ?_⟩
          have hdxne : (wAt ws j).cx - (wAt ws seed).cx ≠ 0 := by
            intro h0
            rw [h0] at hjdx
            norm_num at hjdx
          have hnotlt : ¬(|(wAt ws j).cx - (wAt ws seed).cx| <
              1 / 1000000000) := not_lt.mpr hjdx
          have hLf : trialLine ws seed j =
              .fin (((wAt ws j).cy - (wAt ws seed).cy) /
                  ((wAt ws j).cx - (wAt ws seed).cx))
                ((wAt ws seed).cy - ((wAt ws j).cy - (wAt ws seed).cy) /
                  ((wAt ws j).cx - (wAt ws seed).cx) * (wAt ws seed).cx) := by
            unfold trialLine lineFromPoints
            rw [if_neg hnotlt]
          rw [hLf]
          apply trialInliers_univ hjr
          intro k hk
          have hzero := colinear_on_trial A B C hAB (wAt ws seed).cx
            (wAt ws seed).cy (wAt ws j).cx (wAt ws j).cy (wAt ws k).cx
            (wAt ws k).cy (hcol _ (wAt_mem hseedlt))
            (hcol _ (wAt_mem (hjmem j hjr))) (hcol _ (wAt_mem (hjmem k hk)))
            hdxne
          show (((wAt ws j).cy - (wAt ws seed).cy) /
                ((wAt ws j).cx - (wAt ws seed).cx) * (wAt ws k).cx -
              (wAt ws k).cy +
              ((wAt ws seed).cy - ((wAt ws j).cy - (wAt ws seed).cy) /
                ((wAt ws j).cx - (wAt ws seed).cx) * (wAt ws seed).cx)) ^ 2 ≤
            clusterTol ws ^ 2 *
              ((((wAt ws j).cy - (wAt ws seed).cy) /
                ((wAt ws j).cx - (wAt ws seed).cx)) ^ 2 + 1)
          rw [hzero]
          simp
          positivity
      have hbest := bestTrial_univ ws (clusterTol ws) rem1 seed top htopmem
        hfull
      obtain ⟨h2, hcount⟩ := clusterOnce_consume ws (clusterTol ws)
        (clusterBand ws) (List.range n) seed hfilter hrne hbest
      have hcard : (insert seed rem1.toFinset).card = n := by
        have hnd : rem1.Nodup := by
          rw [hrem1]
          exact hnodup.erase seed
        have hni : seed ∉ rem1.toFinset := by
          rw [List.mem_toFinset, hrem1]
          intro hmem
          exact ((hnodup.mem_erase_iff).mp hmem).1 rfl
        rw [Finset.card_insert_of_not_mem hni,
          List.toFinset_card_of_nodup hnd, hr1len]
        omega
      exact ⟨h2, by rw [hcount, hcard]⟩
  obtain ⟨hrem0, hcount⟩ := hONE
  obtain ⟨f0, hf0⟩ : ∃ f0, n = f0 + 1 := ⟨n - 1, by omega⟩
  have hloop : clusterLoop ws (clusterTol ws) (clusterBand ws)
      (List.insertionSort (idxLe ws) (List.range n)) n (List.range n) =
      [(clusterOnce ws (clusterTol ws) (clusterBand ws)
        (List.range n) seed).1] := by
    have hstep := clusterLoop_cons ws (clusterTol ws) (clusterBand ws)
      (List.insertionSort (idxLe ws) (List.range n)) f0 (List.range n) seed
      (by intro h; have hl := congrArg List.length h; simp at hl; omega)
      hfind
    rw [← hf0] at hstep
    rw [hstep, hrem0, clusterLoop_nil]
  have hct : clusterTiltedLines ws =
      [(clusterOnce ws (clusterTol ws) (clusterBand ws)
        (List.range n) seed).1] := by
    unfold clusterTiltedLines
    rw [if_neg hne, ← hn, hloop]
    rfl
  rw [hct]
  refine ⟨rfl, ?_⟩
  intro l hl
  simp at hl
  rw [hl, hcount]

set_option maxRecDepth 4000 in
/-- C8 counterexample: the three words of `cexC8` are non-empty, lie
exactly on the common line 0·x + 1·y = 0 (zero perpendicular distance),
and are pairwise within one seed band vertically, yet the clusterer
returns TWO lines, not one: every pairwise horizontal distance is below
the 1e-9 threshold of `line_from_points`, so each trial fit degenerates
to the vertical marker through the seed and the inlier test rejects the
other words. -/
theorem C8_cex :
    cexC8 ≠ [] ∧
    ¬((0 : ℚ) = 0 ∧ (1 : ℚ) = 0) ∧
    (∀ w ∈ cexC8, 0 * w.cx + 1 * w.cy = 0) ∧
    (∀ w1 ∈ cexC8, ∀ w2 ∈ cexC8, |w1.cy - w2.cy| ≤ clusterBand cexC8) ∧
    (clusterTiltedLines cexC8).length = 2 := by
  refine ⟨by decide, by decide, by decide, by decide, ?_⟩
  decide

set_option maxRecDepth 4000 in
/-- Witness for the amended C8 theorem: the concrete triple `okC8` on the
line 2x − y = 0, with the hypotheses checked by kernel evaluation. -/
theorem C8_amended_colinear_single_line_witness :
    (clusterTiltedLines okC8).length = 1 ∧
    ∀ l ∈ clusterTiltedLines okC8, l.count = okC8.length :=
  C8_amended_colinear_single_line okC8 2 (-1) 0 (by decide) (by decide)
    (by decide) (by decide) (by decide)

/-- Witness for C6 at a concrete pair collection. -/
theorem C6_weighted_median_of_trimmed_witness :
    specFirstHalfReach (specIqrTrimmed [((1 : ℚ), (1 : ℚ)), (3, 2), (100, 1)]) ≠
      none ∧
    skewFromPairs [((1 : ℚ), (1 : ℚ)), (3, 2), (100, 1)] =
      ((specFirstHalfReach
          (specIqrTrimmed [((1 : ℚ), (1 : ℚ)), (3, 2), (100, 1)])).getD 0,
        (specIqrTrimmed [((1 : ℚ), (1 : ℚ)), (3, 2), (100, 1)]).length) :=
  C6_weighted_median_of_trimmed [(1, 1), (3, 2), (100, 1)] (by decide)
    (by decide)

end DentalOCR
